import Mathlib

/-!
Verification development for the C_containers library: a shallow embedding of
the sorted association chains (queues.c / deepqueues.c) and the hash
directories built on them (hashtabs.c / deephashtabs.c), together with proofs
of the behavioural properties of the core subsystem.

Modelling conventions:
* An element of a chain is a value of an arbitrary type alpha; the
  caller-supplied comparator is a function cmp : alpha -> alpha -> Int
  returning the C values -1, 0, 1, and the caller-supplied hash function is
  hash : alpha -> Nat (the C uint64 value; only its residue modulo the
  capacity is ever used).
* A doubly linked chain is modelled by the list of payloads reachable from
  head via next, its size counter, and the null-ness of its tail pointer
  (the prev links carry no extra observable state).
* size_t counters are modelled as Nat.  Wraparound at 2^64 is not modelled:
  every theorem below concerns states in which each decremented counter is
  positive, where the two semantics agree.
* Branches in which the C program has undefined behaviour (dereferencing a
  dangling or null pointer, a comparator outside -1/0/1 making a loop spin
  forever) are modelled as no-ops returning not-found; every theorem assumes
  comparator values in -1/0/1 and states that keep those branches unreached.
-/

/-- size_t SIZE_MAX on the 64-bit platform the library targets. -/
def C_SIZE_MAX : Nat := 2 ^ 64 - 1

/-- The static prime ladder _primes shared by hashtabs.c and deephashtabs.c
(46 entries: 45 primes and the terminal SIZE_MAX sentinel). -/
def primes : List Nat :=
  [11, 17, 29, 43, 67, 101, 151, 227, 347, 521, 787, 1181, 1777, 2671, 4007,
   6011, 9029, 13553, 20333, 30509, 45763, 68659, 103001, 154501, 231779,
   347671, 521519, 782297, 1173463, 1760203, 2640317, 3960497, 5940761,
   8911141, 13366711, 20050081, 30075127, 45112693, 67669079, 101503627,
   152255461, 228383273, 342574909, 513862367, 770793589, C_SIZE_MAX]

/-- NPRIMES from hashtabs.c / deephashtabs.c. -/
def NPRIMES : Nat := 45

/-- Boolean strict-ascent check used to certify the prime ladder. -/
def sortedNatB : List Nat → Bool
  | [] => true
  | [_] => true
  | a :: b :: t => decide (a < b) && sortedNatB (b :: t)

/-- The scan loop of _get_cap_index: count how many leading entries of the
list are <= n (the loop advances while n >= _primes[i]). -/
def cap_scan (n : Nat) : List Nat → Nat
  | [] => 0
  | p :: ps => if p ≤ n then cap_scan n ps + 1 else 0

/-- _get_cap_index from hashtabs.c / deephashtabs.c: the first index i < NPRIMES
with n < _primes[i], or NPRIMES when the first NPRIMES entries are all <= n. -/
def get_cap_index (n : Nat) : Nat := cap_scan n (primes.take NPRIMES)

section Chains

variable {α : Type}

/-- struct queues_t from queues.c: the payloads reachable from head via next,
the size counter, and whether the tail pointer is NULL.  The comparator the
constructor stores is passed explicitly to each operation instead. -/
structure queues_t (α : Type) where
  elems : List α
  size : Nat
  tail_null : Bool
deriving DecidableEq

/-- queues_new from queues.c: size 0, head and tail NULL. -/
def queues_new : queues_t α := ⟨[], 0, true⟩

variable (cmp : α → α → Int)

/-- The body-scan loop of queues_enqueu: tmp starts at head and the loop
inspects tmp->next, so this function receives the list after the head
element.  Returns the new list on insertion and none when the loop returns
without inserting (a duplicate, or the scan running off the end).  When the
comparator yields a value outside -1/0/1 the C loop spins forever on the
unmatched switch; that branch is modelled as none and is unreachable under
the comparator hypotheses used below. -/
def enqueu_scan (x : α) : List α → Option (List α)
  | [] => none
  | y :: ys =>
    if cmp x y = -1 then some (x :: y :: ys)
    else if cmp x y = 0 then none
    else if cmp x y = 1 then (enqueu_scan x ys).map (fun l => y :: l)
    else none

/-- The payload q->tail->x of a chain whose node list is h :: t (the tail
pointer aims at the last node). -/
def tailPayload (h : α) (t : List α) : α := t.getLastD h

/-- queues_enqueu from queues.c: empty-chain path, tail check, head check,
then the body scan.  In the tail-append branch the C code redirects the tail
pointer to the new node, hence tail_null becomes false there. -/
def queues_enqueu (q : queues_t α) (x : α) : queues_t α :=
  match q.elems with
  | [] => ⟨[x], 1, false⟩
  | h :: t =>
    let lastx := tailPayload h t
    if cmp x lastx = 0 then q
    else if cmp x lastx = 1 then ⟨(h :: t) ++ [x], q.size + 1, false⟩
    else if cmp x h = -1 then ⟨x :: h :: t, q.size + 1, q.tail_null⟩
    else if cmp x h = 0 then q
    else
      match enqueu_scan cmp x t with
      | some l => ⟨h :: l, q.size + 1, q.tail_null⟩
      | none => q

/-- queues_dequeue_front from queues.c.  When the head is the only node the
code nulls the tail before advancing head. -/
def queues_dequeue_front (q : queues_t α) : Option α × queues_t α :=
  match q.elems with
  | [] => (none, q)
  | [a] => (some a, ⟨[], q.size - 1, true⟩)
  | a :: b :: t => (some a, ⟨b :: t, q.size - 1, q.tail_null⟩)

/-- queues_dequeue_back from queues.c.  The guard is on the tail pointer; in
the corrupt state where the tail dangles over an empty node list the C code
reads freed memory (undefined), modelled as a no-op. -/
def queues_dequeue_back (q : queues_t α) : Option α × queues_t α :=
  if q.tail_null then (none, q)
  else
    match q.elems with
    | [] => (none, q)
    | [a] => (some a, ⟨[], q.size - 1, true⟩)
    | a :: b :: t =>
      (some (tailPayload a (b :: t)), ⟨(a :: b :: t).dropLast, q.size - 1, false⟩)

/-- The body loop of queues_remove: tmp runs from head->next while
tmp != tail, so this function receives the list from the second element to
the tail inclusive and never inspects its final element.  On a hit it
returns the removed payload and the remainder of its input.  A comparator
value outside -1/0/1 leaves the C loop spinning on the same node
(undefined), modelled as none. -/
def remove_scan (x : α) : List α → Option (α × List α)
  | [] => none
  | [_] => none
  | y :: z :: ys =>
    if cmp x y = -1 then none
    else if cmp x y = 0 then some (y, z :: ys)
    else if cmp x y = 1 then (remove_scan x (z :: ys)).map (fun p => (p.1, y :: p.2))
    else none

/-- queues_remove from queues.c: head check, tail check, then the body loop.
Removing the head never touches the tail pointer, so removing the last
remaining node leaves tail_null as it was (the dangling-tail slip).  On a
single-node chain whose element the head check classifies as smaller than
the key, the C body loop dereferences NULL (undefined), modelled as
not-found; under a comparator returning -1/0/1 that single-node case is the
tail check returning NULL, which is also not-found. -/
def queues_remove (q : queues_t α) (x : α) : Option α × queues_t α :=
  match q.elems with
  | [] => (none, q)
  | h :: t =>
    if cmp x h = -1 then (none, q)
    else if cmp x h = 0 then (some h, ⟨t, q.size - 1, q.tail_null⟩)
    else
      match t with
      | [] => (none, q)
      | z :: zs =>
        let lastx := tailPayload z zs
        if cmp x lastx = 0 then
          (some lastx, ⟨(h :: z :: zs).dropLast, q.size - 1, q.tail_null⟩)
        else if cmp x lastx = 1 then (none, q)
        else
          match remove_scan cmp x (z :: zs) with
          | some (r, l) => (some r, ⟨h :: l, q.size - 1, q.tail_null⟩)
          | none => (none, q)

/-- queues_find from queues.c, as a function of the node list: return NULL at
the first element greater than the key, the payload on a hit, and advance on
any other comparator value. -/
def queues_find (x : α) : List α → Option α
  | [] => none
  | y :: ys =>
    if cmp x y = -1 then none
    else if cmp x y = 0 then some y
    else queues_find x ys

/-- queues_size from queues.c. -/
def queues_size (q : queues_t α) : Nat := q.size

/-- struct dqueues_t from deepqueues.c: as queues_t plus the per-element byte
size handed to dqueues_new and the member counter nmems.  The memcpy of size
bytes on insert is modelled as storing the value itself. -/
structure dqueues_t (α : Type) where
  elems : List α
  size : Nat
  nmems : Nat
  tail_null : Bool
deriving DecidableEq

/-- dqueues_new from deepqueues.c. -/
def dqueues_new (size : Nat) : dqueues_t α := ⟨[], size, 0, true⟩

/-- dqueues_enqueu from deepqueues.c: identical control flow to
queues_enqueu, maintaining nmems instead of size and copying the payload. -/
def dqueues_enqueu (q : dqueues_t α) (x : α) : dqueues_t α :=
  match q.elems with
  | [] => ⟨[x], q.size, 1, false⟩
  | h :: t =>
    let lastx := tailPayload h t
    if cmp x lastx = 0 then q
    else if cmp x lastx = 1 then ⟨(h :: t) ++ [x], q.size, q.nmems + 1, false⟩
    else if cmp x h = -1 then ⟨x :: h :: t, q.size, q.nmems + 1, q.tail_null⟩
    else if cmp x h = 0 then q
    else
      match enqueu_scan cmp x t with
      | some l => ⟨h :: l, q.size, q.nmems + 1, q.tail_null⟩
      | none => q

/-- dqueues_find from deepqueues.c has the same body as queues_find. -/
def dqueues_find (x : α) (l : List α) : Option α := queues_find cmp x l

/-- dqueues_size from deepqueues.c returns nmems. -/
def dqueues_size (q : dqueues_t α) : Nat := q.nmems

end Chains

section Tables

variable {α : Type}

/-- struct hashtabs_t from hashtabs.c: the entry counter, the count load of
buckets, the prime-ladder index, and the bucket array (NULL slots are none).
The stored function pointers are passed to each operation explicitly. -/
structure hashtabs_t (α : Type) where
  size : Nat
  load : Nat
  cap_index : Nat
  A : Nat → Option (queues_t α)

/-- hashtabs_capacity from hashtabs.c: _primes[t->cap_index]. -/
def hashtabs_capacity (t : hashtabs_t α) : Nat := primes.getD t.cap_index 0

/-- hashtabs_new from hashtabs.c: capacity from _get_cap_index, zero
counters, and a calloc'd (all-NULL) bucket array. -/
def hashtabs_new (n : Nat) : hashtabs_t α :=
  ⟨0, 0, get_cap_index n, fun _ => none⟩

variable (cmp : α → α → Int) (hash : α → Nat)

/-- hashtabs_insert from hashtabs.c: slot = hash(x) mod capacity; allocate
the bucket and bump load if the slot is NULL; delegate to queues_enqueu; then
increment size unconditionally. -/
def hashtabs_insert (t : hashtabs_t α) (x : α) : hashtabs_t α :=
  let val := hash x % hashtabs_capacity t
  match t.A val with
  | none =>
    { size := t.size + 1, load := t.load + 1, cap_index := t.cap_index,
      A := fun i => if i = val then some (queues_enqueu cmp queues_new x) else t.A i }
  | some q =>
    { size := t.size + 1, load := t.load, cap_index := t.cap_index,
      A := fun i => if i = val then some (queues_enqueu cmp q x) else t.A i }

/-- The scan loop of hashtabs_remove over the bucket indices: the first
bucket whose queues_remove succeeds, together with the removed payload and
the updated bucket.  queues_remove on a NULL bucket returns NULL. -/
def remove_buckets (t : hashtabs_t α) (x : α) :
    List Nat → Option (Nat × α × queues_t α)
  | [] => none
  | i :: is =>
    match t.A i with
    | none => remove_buckets t x is
    | some q =>
      match queues_remove cmp q x with
      | (some r, q') => some (i, r, q')
      | (none, _) => remove_buckets t x is

/-- hashtabs_remove from hashtabs.c: scan every bucket in directory order;
on the first hit decrement size, decrement load if the bucket emptied, and
return the payload. -/
def hashtabs_remove (t : hashtabs_t α) (x : α) : Option α × hashtabs_t α :=
  match remove_buckets cmp t x (List.range (hashtabs_capacity t)) with
  | none => (none, t)
  | some (i, r, q') =>
    (some r,
     { size := t.size - 1,
       load := if queues_size q' = 0 then t.load - 1 else t.load,
       cap_index := t.cap_index,
       A := fun j => if j = i then some q' else t.A j })

/-- The node list of bucket i (empty for a NULL bucket). -/
def chainElems (t : hashtabs_t α) (i : Nat) : List α :=
  match t.A i with
  | none => []
  | some q => q.elems

/-- The scan loop of hashtabs_find over the bucket indices. -/
def find_buckets (t : hashtabs_t α) (x : α) : List Nat → Option α
  | [] => none
  | i :: is =>
    match queues_find cmp x (chainElems t i) with
    | some y => some y
    | none => find_buckets t x is

/-- hashtabs_find from hashtabs.c: scan every bucket in directory order and
return the first hit.  queues_find on a NULL bucket returns NULL, exactly as
on an empty node list. -/
def hashtabs_find (t : hashtabs_t α) (x : α) : Option α :=
  find_buckets cmp t x (List.range (hashtabs_capacity t))

/-- The entries reachable by a full traversal (hashtabs_map order): buckets
in directory order, each bucket head to tail. -/
def entries (t : hashtabs_t α) : List α :=
  ((List.range (hashtabs_capacity t)).map (chainElems t)).flatten

/-- hashtabs_rehash from hashtabs.c: a fresh directory sized by
_get_cap_index of the current capacity, then every entry of the old
directory reinserted through ordinary hashtabs_insert in traversal order. -/
def hashtabs_rehash (t : hashtabs_t α) : hashtabs_t α :=
  (entries t).foldl (hashtabs_insert cmp hash) (hashtabs_new (hashtabs_capacity t))

/-- hashtabs_size from hashtabs.c. -/
def hashtabs_size (t : hashtabs_t α) : Nat := t.size

/-- hashtabs_loadfactor from hashtabs.c: size / load, 0 when load is 0. -/
def hashtabs_loadfactor (t : hashtabs_t α) : Nat :=
  if t.load = 0 then 0 else t.size / t.load

/-- The number of buckets currently holding at least one entry. -/
def nonemptyCount (t : hashtabs_t α) : Nat :=
  (List.range (hashtabs_capacity t)).countP (fun i => !(chainElems t i).isEmpty)

/-- struct dhashtabs_t from deephashtabs.c: nmems is documented as the number
of elements and size as the total size of the data objects; size is
initialized to the record byte size passed to dhashtabs_new. -/
structure dhashtabs_t (α : Type) where
  nmems : Nat
  size : Nat
  load : Nat
  cap_index : Nat
  A : Nat → Option (dqueues_t α)

/-- dhashtabs_capacity from deephashtabs.c. -/
def dhashtabs_capacity (t : dhashtabs_t α) : Nat := primes.getD t.cap_index 0

/-- dhashtabs_new from deephashtabs.c: size starts at the record byte size,
nmems at 0. -/
def dhashtabs_new (n size : Nat) : dhashtabs_t α :=
  ⟨0, size, 0, get_cap_index n, fun _ => none⟩

/-- dhashtabs_insert from deephashtabs.c: as hashtabs_insert, but a freshly
allocated bucket receives the current t->size as its per-element byte size,
and the unconditional increment at the end is applied to t->size, never to
t->nmems. -/
def dhashtabs_insert (t : dhashtabs_t α) (x : α) : dhashtabs_t α :=
  let val := hash x % dhashtabs_capacity t
  match t.A val with
  | none =>
    { nmems := t.nmems, size := t.size + 1, load := t.load + 1,
      cap_index := t.cap_index,
      A := fun i => if i = val then some (dqueues_enqueu cmp (dqueues_new t.size) x)
                    else t.A i }
  | some q =>
    { nmems := t.nmems, size := t.size + 1, load := t.load,
      cap_index := t.cap_index,
      A := fun i => if i = val then some (dqueues_enqueu cmp q x) else t.A i }

/-- The node list of deep bucket i. -/
def dchainElems (t : dhashtabs_t α) (i : Nat) : List α :=
  match t.A i with
  | none => []
  | some q => q.elems

/-- The scan loop of dhashtabs_find over the bucket indices. -/
def dfind_buckets (t : dhashtabs_t α) (x : α) : List Nat → Option α
  | [] => none
  | i :: is =>
    match dqueues_find cmp x (dchainElems t i) with
    | some y => some y
    | none => dfind_buckets t x is

/-- dhashtabs_find from deephashtabs.c. -/
def dhashtabs_find (t : dhashtabs_t α) (x : α) : Option α :=
  dfind_buckets cmp t x (List.range (dhashtabs_capacity t))

/-- dhashtabs_size from deephashtabs.c returns t->size. -/
def dhashtabs_size (t : dhashtabs_t α) : Nat := t.size

end Tables

/-- The canonical three-way comparator on Nat used for concrete instances. -/
def natCmp (a b : Nat) : Int := if a < b then -1 else if a = b then 0 else 1

/-- The laws the library demands of a caller-supplied comparator: a
three-way comparison realizing a linear ordering, returning exactly
-1, 0 or 1 (queues.h: "must provide a linear ordering of the data"). -/
structure CmpLaws {α : Type} (cmp : α → α → Int) : Prop where
  range : ∀ a b, cmp a b = -1 ∨ cmp a b = 0 ∨ cmp a b = 1
  flip : ∀ a b, cmp b a = -(cmp a b)
  lt_trans : ∀ {a b c}, cmp a b = -1 → cmp b c = -1 → cmp a c = -1
  eq_congr : ∀ a b c, cmp a b = 0 → cmp a c = cmp b c

/-- Chain states reachable by the chain operations from a fresh chain. -/
inductive QReach {α : Type} (cmp : α → α → Int) : queues_t α → Prop where
  | init : QReach cmp queues_new
  | enq (q x) : QReach cmp q → QReach cmp (queues_enqueu cmp q x)
  | rem (q x) : QReach cmp q → QReach cmp (queues_remove cmp q x).2
  | deqf (q) : QReach cmp q → QReach cmp (queues_dequeue_front q).2
  | deqb (q) : QReach cmp q → QReach cmp (queues_dequeue_back q).2

/-- Directory states reachable from a fresh directory by inserts alone. -/
inductive HReachIns {α : Type} (cmp : α → α → Int) (hash : α → Nat) :
    hashtabs_t α → Prop where
  | init (n) : HReachIns cmp hash (hashtabs_new n)
  | ins (t x) : HReachIns cmp hash t → HReachIns cmp hash (hashtabs_insert cmp hash t x)

/-- The structural well-formedness of a directory state maintained by the
operations: every bucket is sorted, comparator-equal entries never live in
two different buckets, and the size counter dominates the true entry count
(it can overcount because of the unconditional increment on insert). -/
structure hashtabs_inv {α : Type} (cmp : α → α → Int) (t : hashtabs_t α) : Prop where
  sorted_chains : ∀ i < hashtabs_capacity t,
    (chainElems t i).Pairwise (fun a b => cmp a b = -1)
  cross : ∀ i < hashtabs_capacity t, ∀ j < hashtabs_capacity t, i ≠ j →
    ∀ y ∈ chainElems t i, ∀ z ∈ chainElems t j, cmp y z ≠ 0
  size_ge : (entries t).length ≤ t.size

/-- Scenario table: directory expecting 5 elements with keys 5, 1, 3. -/
def exTabS : hashtabs_t Nat :=
  [5, 1, 3].foldl (hashtabs_insert natCmp id) (hashtabs_new 5)

/-- The same scenario on the deep directory with record byte size 8. -/
def exTabD : dhashtabs_t Nat :=
  [5, 1, 3].foldl (dhashtabs_insert natCmp id) (dhashtabs_new 5 8)

/-- Insert 0 into a fresh directory and remove it again: bucket 0 stays
allocated but empty. -/
def exTab6m : hashtabs_t Nat :=
  (hashtabs_remove natCmp (hashtabs_insert natCmp id (hashtabs_new 5) 0) 0).2

/-- Insert 0, remove it (emptying bucket 0), insert 0 again. -/
def exTab6 : hashtabs_t Nat := hashtabs_insert natCmp id exTab6m 0

/-- Three entries all hashing to bucket 0 (keys 0, 11, 22 at capacity 11). -/
def exTab9a : hashtabs_t Nat :=
  [0, 11, 22].foldl (hashtabs_insert natCmp id) (hashtabs_new 5)

/-- A directory holding a single entry. -/
def exTab9b : hashtabs_t Nat := hashtabs_insert natCmp id (hashtabs_new 5) 0

/-- A fresh chain given one element which is then removed by key. -/
def exQ10 : queues_t Nat :=
  (queues_remove natCmp (queues_enqueu natCmp queues_new 7) 7).2

/-- A chain reached by enqueuing 3, 1, 5 and removing 3. -/
def exQ4 : queues_t Nat :=
  (queues_remove natCmp
    (queues_enqueu natCmp
      (queues_enqueu natCmp (queues_enqueu natCmp queues_new 3) 1) 5) 3).2

section CmpFacts

variable {α : Type} {cmp : α → α → Int}

lemma CmpLaws.refl (hl : CmpLaws cmp) (a : α) : cmp a a = 0 := by
  have h := hl.flip a a
  omega

lemma CmpLaws.lt_of_lt_of_eq (hl : CmpLaws cmp) {a b c : α}
    (h1 : cmp a b = -1) (h2 : cmp b c = 0) : cmp a c = -1 := by
  have e1 := hl.eq_congr b c a h2
  have e2 := hl.flip a b
  have e3 := hl.flip a c
  omega

lemma CmpLaws.lt_of_eq_of_lt (hl : CmpLaws cmp) {a b c : α}
    (h1 : cmp a b = 0) (h2 : cmp b c = -1) : cmp a c = -1 := by
  have := hl.eq_congr a b c h1
  omega

lemma CmpLaws.gt_of_lt (hl : CmpLaws cmp) {a b : α} (h : cmp a b = -1) :
    cmp b a = 1 := by
  have := hl.flip a b
  omega

lemma CmpLaws.lt_of_gt (hl : CmpLaws cmp) {a b : α} (h : cmp a b = 1) :
    cmp b a = -1 := by
  have := hl.flip a b
  omega

lemma CmpLaws.eq_symm (hl : CmpLaws cmp) {a b : α} (h : cmp a b = 0) :
    cmp b a = 0 := by
  have := hl.flip a b
  omega

/-- x equal to y and y below z puts x below z, flipped form. -/
lemma CmpLaws.gt_of_eq_of_gt (hl : CmpLaws cmp) {a b c : α}
    (h1 : cmp a b = 0) (h2 : cmp b c = 1) : cmp a c = 1 := by
  have := hl.eq_congr a b c h1
  omega

end CmpFacts

section ListFacts

variable {α : Type}

lemma tailPayload_mem (h : α) (t : List α) : tailPayload h t ∈ h :: t := by
  unfold tailPayload
  induction t generalizing h with
  | nil => simp
  | cons b t ih =>
    simp only [List.getLastD_cons]
    exact List.mem_cons_of_mem h (ih b)

lemma tailPayload_cons (a b : α) (l : List α) :
    tailPayload a (b :: l) = tailPayload b l := by
  simp only [tailPayload, List.getLastD_cons]

/-- Splitting a nonempty node list at the node the tail pointer aims at. -/
lemma cons_eq_dropLast_append (h : α) (t : List α) :
    h :: t = (h :: t).dropLast ++ [tailPayload h t] := by
  have hne : h :: t ≠ [] := by simp
  have := List.dropLast_append_getLast hne
  rw [List.getLast_eq_getLastD] at this
  exact this.symm

/-- Every node of a pairwise-sorted nonempty list other than the last is
related to the tail payload. -/
lemma pairwise_lt_getLastD {R : α → α → Prop} {h : α} {t : List α}
    (hp : (h :: t).Pairwise R) :
    ∀ y ∈ (h :: t).dropLast, R y (tailPayload h t) := by
  have hsplit := cons_eq_dropLast_append h t
  rw [hsplit] at hp
  have := (List.pairwise_append.mp hp).2.2
  intro y hy
  exact this y hy _ (by simp)

end ListFacts

section ScanFacts

variable {α : Type} {cmp : α → α → Int}

/-- Structure of a successful body scan: the insertion point splits the
input, everything before is below x and the element at the point is above
x. -/
lemma enqueu_scan_decomp {x : α} {t l' : List α}
    (h : enqueu_scan cmp x t = some l') :
    ∃ m₁ z zs, t = m₁ ++ z :: zs ∧ l' = m₁ ++ x :: z :: zs ∧
      (∀ y ∈ m₁, cmp x y = 1) ∧ cmp x z = -1 := by
  induction t generalizing l' with
  | nil => simp [enqueu_scan] at h
  | cons y ys ih =>
    by_cases h1 : cmp x y = -1
    · refine ⟨[], y, ys, by simp, ?_, by simp, h1⟩
      simp only [enqueu_scan, h1, if_pos] at h
      simpa using h.symm
    · by_cases h2 : cmp x y = 0
      · simp [enqueu_scan, h1, h2] at h
      · by_cases h3 : cmp x y = 1
        · simp only [enqueu_scan, h1, h2, h3, if_neg, if_pos,
            reduceIte] at h
          rcases Option.map_eq_some'.mp h with ⟨l'', hl'', rfl⟩
          rcases ih hl'' with ⟨m₁, z, zs, rfl, rfl, hm, hz⟩
          exact ⟨y :: m₁, z, zs, rfl, rfl, by
            intro w hw
            rcases List.mem_cons.mp hw with rfl | hw
            · exact h3
            · exact hm w hw, hz⟩
        · simp [enqueu_scan, h1, h2, h3] at h

/-- On a sorted list containing a member equal to x the body scan rejects
and returns without inserting. -/
lemma enqueu_scan_none_of_mem (hl : CmpLaws cmp) {x y : α} {t : List α}
    (hp : t.Pairwise (fun a b => cmp a b = -1)) (hy : y ∈ t)
    (h0 : cmp x y = 0) : enqueu_scan cmp x t = none := by
  induction t with
  | nil => simp at hy
  | cons z zs ih =>
    rcases List.pairwise_cons.mp hp with ⟨hz, hzs⟩
    rcases List.mem_cons.mp hy with h | hy'
    · have h0' : cmp x z = 0 := h ▸ h0
      have h1 : cmp x z ≠ -1 := by omega
      simp [enqueu_scan, h1, h0']
    · have hzx : cmp x z = 1 := by
        have h1 := hl.lt_of_lt_of_eq (hz y hy') (hl.eq_symm h0)
        exact hl.gt_of_lt h1
      have h1 : cmp x z ≠ -1 := by omega
      have h2 : cmp x z ≠ 0 := by omega
      simp [enqueu_scan, h1, h2, hzx, ih hzs hy']

/-- On a sorted list whose last element is above x and which contains no
member equal to x the body scan succeeds. -/
lemma enqueu_scan_insert (hl : CmpLaws cmp) {x : α} {t : List α}
    (hp : t.Pairwise (fun a b => cmp a b = -1)) (hne : t ≠ [])
    (hlast : cmp x (t.getLast hne) = -1)
    (hnoeq : ∀ y ∈ t, cmp x y ≠ 0) :
    ∃ l', enqueu_scan cmp x t = some l' := by
  induction t with
  | nil => simp at hne
  | cons y ys ih =>
    by_cases h1 : cmp x y = -1
    · exact ⟨x :: y :: ys, by simp [enqueu_scan, h1]⟩
    · have h2 : cmp x y ≠ 0 := hnoeq y (by simp)
      have h3 : cmp x y = 1 := by rcases hl.range x y with h | h | h <;> omega
      cases ys with
      | nil => exact absurd hlast h1
      | cons z zs =>
        have hys : z :: zs ≠ [] := by simp
        have hlast' : cmp x ((z :: zs).getLast hys) = -1 := by
          rwa [List.getLast_cons hys] at hlast
        rcases ih (List.pairwise_cons.mp hp).2 hys hlast'
            (fun w hw => hnoeq w (by simp [hw])) with ⟨l', hl'⟩
        refine ⟨y :: l', ?_⟩
        have hstep : enqueu_scan cmp x (y :: z :: zs) =
            (enqueu_scan cmp x (z :: zs)).map (fun l => y :: l) := by
          show (if cmp x y = -1 then some (x :: y :: z :: zs)
            else if cmp x y = 0 then none
            else if cmp x y = 1 then
              (enqueu_scan cmp x (z :: zs)).map (fun l => y :: l)
            else none) = _
          rw [if_neg h1, if_neg h2, if_pos h3]
        rw [hstep, hl']
        rfl

end ScanFacts

section EnqueuFacts

variable {α : Type} {cmp : α → α → Int}

/-- On a sorted chain holding a member equal to x, every route through
queues_enqueu leads to one of the three no-op exits: the tail check, the
head check, or the body scan. -/
lemma noop_guards (hl : CmpLaws cmp) {h : α} {t : List α} {x y : α}
    (hp : (h :: t).Pairwise (fun a b => cmp a b = -1))
    (hy : y ∈ h :: t) (h0 : cmp x y = 0) :
    cmp x (tailPayload h t) = 0
  ∨ (cmp x (tailPayload h t) = -1 ∧
      (cmp x h = 0 ∨ (cmp x h = 1 ∧ enqueu_scan cmp x t = none))) := by
  have hsplit := cons_eq_dropLast_append h t
  have hy2 := hy
  rw [hsplit, List.mem_append] at hy2
  rcases hy2 with hyd | hylast
  · have hylt : cmp y (tailPayload h t) = -1 := pairwise_lt_getLastD hp y hyd
    have hxlast : cmp x (tailPayload h t) = -1 := hl.lt_of_eq_of_lt h0 hylt
    refine Or.inr ⟨hxlast, ?_⟩
    rcases List.mem_cons.mp hy with hyh | hyt
    · exact Or.inl (hyh ▸ h0)
    · refine Or.inr ⟨?_, ?_⟩
      · have hhy : cmp h y = -1 := (List.pairwise_cons.mp hp).1 y hyt
        exact hl.gt_of_lt (hl.lt_of_lt_of_eq hhy (hl.eq_symm h0))
      · exact enqueu_scan_none_of_mem hl (List.pairwise_cons.mp hp).2 hyt h0
  · have : y = tailPayload h t := by simpa using hylast
    exact Or.inl (this ▸ h0)

/-- queues_enqueu of a value equal to an existing member of a sorted chain
is a no-op: the chain object is returned unchanged. -/
lemma queues_enqueu_noop (hl : CmpLaws cmp) (q : queues_t α) {x y : α}
    (hp : q.elems.Pairwise (fun a b => cmp a b = -1))
    (hy : y ∈ q.elems) (h0 : cmp x y = 0) :
    queues_enqueu cmp q x = q := by
  obtain ⟨l, n, b⟩ := q
  cases l with
  | nil => simp at hy
  | cons h t =>
    rcases noop_guards hl hp hy h0 with hg | ⟨hg1, hg⟩
    · simp [queues_enqueu, hg]
    · have c1 : ¬ cmp x (tailPayload h t) = 0 := by omega
      have c2 : ¬ cmp x (tailPayload h t) = 1 := by omega
      rcases hg with hg | ⟨hgh, hscan⟩
      · have c3 : ¬ cmp x h = -1 := by omega
        simp [queues_enqueu, c1, c2, c3, hg]
      · have c3 : ¬ cmp x h = -1 := by omega
        have c4 : ¬ cmp x h = 0 := by omega
        simp [queues_enqueu, c1, c2, c3, c4, hscan]

/-- dqueues_enqueu of a value equal to an existing member of a sorted deep
chain is likewise a no-op (the control flow of deepqueues.c is identical). -/
lemma dqueues_enqueu_noop (hl : CmpLaws cmp) (q : dqueues_t α) {x y : α}
    (hp : q.elems.Pairwise (fun a b => cmp a b = -1))
    (hy : y ∈ q.elems) (h0 : cmp x y = 0) :
    dqueues_enqueu cmp q x = q := by
  obtain ⟨l, s, n, b⟩ := q
  cases l with
  | nil => simp at hy
  | cons h t =>
    rcases noop_guards hl hp hy h0 with hg | ⟨hg1, hg⟩
    · simp [dqueues_enqueu, hg]
    · have c1 : ¬ cmp x (tailPayload h t) = 0 := by omega
      have c2 : ¬ cmp x (tailPayload h t) = 1 := by omega
      rcases hg with hg | ⟨hgh, hscan⟩
      · have c3 : ¬ cmp x h = -1 := by omega
        simp [dqueues_enqueu, c1, c2, c3, hg]
      · have c3 : ¬ cmp x h = -1 := by omega
        have c4 : ¬ cmp x h = 0 := by omega
        simp [dqueues_enqueu, c1, c2, c3, c4, hscan]

/-- queues_enqueu keeps the chain sorted. -/
lemma queues_enqueu_pairwise (hl : CmpLaws cmp) (q : queues_t α) (x : α)
    (hp : q.elems.Pairwise (fun a b => cmp a b = -1)) :
    (queues_enqueu cmp q x).elems.Pairwise (fun a b => cmp a b = -1) := by
  obtain ⟨l, n, b⟩ := q
  cases l with
  | nil => simp [queues_enqueu]
  | cons h t =>
    by_cases c1 : cmp x (tailPayload h t) = 0
    · simpa [queues_enqueu, c1] using hp
    · by_cases c2 : cmp x (tailPayload h t) = 1
      · rw [show (queues_enqueu cmp ⟨h :: t, n, b⟩ x).elems = (h :: t) ++ [x] by
          simp [queues_enqueu, c1, c2]]
        refine List.pairwise_append.mpr ⟨hp, by simp, ?_⟩
        intro a ha bb hbb
        have hbx : bb = x := by simpa using hbb
        rw [hbx]
        have hsplit := cons_eq_dropLast_append h t
        rw [hsplit, List.mem_append] at ha
        have hlx : cmp (tailPayload h t) x = -1 := hl.lt_of_gt c2
        rcases ha with had | halast
        · exact hl.lt_trans (pairwise_lt_getLastD hp a had) hlx
        · have : a = tailPayload h t := by simpa using halast
          exact this ▸ hlx
      · by_cases c3 : cmp x h = -1
        · rw [show (queues_enqueu cmp ⟨h :: t, n, b⟩ x).elems = x :: h :: t by
            simp [queues_enqueu, c1, c2, c3]]
          refine List.pairwise_cons.mpr ⟨?_, hp⟩
          intro a ha
          rcases List.mem_cons.mp ha with rfl | hat
          · exact c3
          · exact hl.lt_trans c3 ((List.pairwise_cons.mp hp).1 a hat)
        · by_cases c4 : cmp x h = 0
          · simpa [queues_enqueu, c1, c2, c3, c4] using hp
          · have c5 : cmp x h = 1 := by rcases hl.range x h with h' | h' | h' <;> omega
            cases hscan : enqueu_scan cmp x t with
            | none => simpa [queues_enqueu, c1, c2, c3, c4, hscan] using hp
            | some l' =>
              rw [show (queues_enqueu cmp ⟨h :: t, n, b⟩ x).elems = h :: l' by
                simp [queues_enqueu, c1, c2, c3, c4, hscan]]
              rcases enqueu_scan_decomp hscan with ⟨m₁, z, zs, ht, rfl, hm, hz⟩
              subst ht
              rcases List.pairwise_cons.mp hp with ⟨hh, htl⟩
              rcases List.pairwise_append.mp htl with ⟨hm1p, hzp, hcross⟩
              refine List.pairwise_cons.mpr ⟨?_, ?_⟩
              · intro w hw
                rw [List.mem_append, List.mem_cons] at hw
                rcases hw with hw | hw | hw
                · exact hh w (List.mem_append_left _ hw)
                · exact hw ▸ hl.lt_of_gt c5
                · exact hh w (List.mem_append_right _ hw)
              · refine List.pairwise_append.mpr ⟨hm1p, ?_, ?_⟩
                · refine List.pairwise_cons.mpr ⟨?_, hzp⟩
                  intro w hw
                  rcases List.mem_cons.mp hw with rfl | hwz
                  · exact hz
                  · exact hl.lt_trans hz ((List.pairwise_cons.mp hzp).1 w hwz)
                · intro a ha bb hbb
                  rcases List.mem_cons.mp hbb with rfl | hbz
                  · exact hl.lt_of_gt (hm a ha)
                  · exact hcross a ha bb hbz

/-- On a sorted chain with no member equal to x, queues_enqueu inserts x at
exactly one position and keeps everything else: the node list splits around
the new element. -/
lemma queues_enqueu_insert (hl : CmpLaws cmp) (q : queues_t α) (x : α)
    (hp : q.elems.Pairwise (fun a b => cmp a b = -1))
    (hnoeq : ∀ y ∈ q.elems, cmp x y ≠ 0) :
    ∃ l₁ l₂, q.elems = l₁ ++ l₂ ∧
      (queues_enqueu cmp q x).elems = l₁ ++ x :: l₂ := by
  obtain ⟨l, n, b⟩ := q
  cases l with
  | nil => exact ⟨[], [], rfl, by simp [queues_enqueu]⟩
  | cons h t =>
    have hlx : cmp x (tailPayload h t) ≠ 0 := hnoeq _ (tailPayload_mem h t)
    by_cases c2 : cmp x (tailPayload h t) = 1
    · exact ⟨h :: t, [], by simp, by simp [queues_enqueu, hlx, c2]⟩
    · have c1 : cmp x (tailPayload h t) = -1 := by
        rcases hl.range x (tailPayload h t) with h' | h' | h' <;> omega
      by_cases c3 : cmp x h = -1
      · exact ⟨[], h :: t, by simp, by simp [queues_enqueu, hlx, c2, c3]⟩
      · have c4 : cmp x h ≠ 0 := hnoeq h (by simp)
        have tne : t ≠ [] := by
          rintro rfl
          exact c3 (by simpa using c1)
        have hgl : t.getLast tne = tailPayload h t := by
          rw [← List.getLast_cons tne (a := h), List.getLast_eq_getLastD]
          rfl
        rcases enqueu_scan_insert hl (List.pairwise_cons.mp hp).2 tne
            (by rw [hgl]; exact c1)
            (fun w hw => hnoeq w (List.mem_cons_of_mem h hw)) with ⟨l', hscan⟩
        rcases enqueu_scan_decomp hscan with ⟨m₁, z, zs, ht, rfl, hm, hz⟩
        refine ⟨h :: m₁, z :: zs, by simp [ht], ?_⟩
        simp [queues_enqueu, hlx, c2, c3, c4, hscan]

/-- queues_enqueu never empties a chain. -/
lemma queues_enqueu_ne_nil (q : queues_t α) (x : α) :
    (queues_enqueu cmp q x).elems ≠ [] := by
  obtain ⟨l, n, b⟩ := q
  cases l with
  | nil => simp [queues_enqueu]
  | cons h t =>
    simp only [queues_enqueu]
    split_ifs <;> try simp
    cases hscan : enqueu_scan cmp x t <;> simp

end EnqueuFacts

section FindFacts

variable {α : Type} {cmp : α → α → Int}

lemma queues_find_some {x y : α} {l : List α}
    (h : queues_find cmp x l = some y) : y ∈ l ∧ cmp x y = 0 := by
  induction l with
  | nil => simp [queues_find] at h
  | cons z zs ih =>
    by_cases c1 : cmp x z = -1
    · simp [queues_find, c1] at h
    · by_cases c2 : cmp x z = 0
      · have : z = y := by simpa [queues_find, c1, c2] using h
        exact ⟨by simp [← this], this ▸ c2⟩
      · have h' : queues_find cmp x zs = some y := by
          simpa [queues_find, c1, c2] using h
        rcases ih h' with ⟨hm, he⟩
        exact ⟨List.mem_cons_of_mem z hm, he⟩

lemma queues_find_none {x : α} {l : List α}
    (hnoeq : ∀ y ∈ l, cmp x y ≠ 0) : queues_find cmp x l = none := by
  induction l with
  | nil => rfl
  | cons z zs ih =>
    by_cases c1 : cmp x z = -1
    · simp [queues_find, c1]
    · have c2 : cmp x z ≠ 0 := hnoeq z (by simp)
      simp [queues_find, c1, c2,
        ih (fun w hw => hnoeq w (List.mem_cons_of_mem z hw))]

lemma queues_find_mem (hl : CmpLaws cmp) {x y : α} {l : List α}
    (hp : l.Pairwise (fun a b => cmp a b = -1)) (hy : y ∈ l)
    (h0 : cmp x y = 0) : queues_find cmp x l = some y := by
  induction l with
  | nil => simp at hy
  | cons z zs ih =>
    rcases List.pairwise_cons.mp hp with ⟨hz, hzs⟩
    rcases List.mem_cons.mp hy with h | hy'
    · have h0' : cmp x z = 0 := h ▸ h0
      have c1 : ¬ cmp x z = -1 := by omega
      simp [queues_find, c1, h0', h]
    · have hzx : cmp x z = 1 :=
        hl.gt_of_lt (hl.lt_of_lt_of_eq (hz y hy') (hl.eq_symm h0))
      have c1 : ¬ cmp x z = -1 := by omega
      have c2 : ¬ cmp x z = 0 := by omega
      simp [queues_find, c1, c2, ih hzs hy']

end FindFacts

section RemoveFacts

variable {α : Type} {cmp : α → α → Int}

/-- Structure of a successful body loop of queues_remove. -/
lemma remove_scan_decomp {x : α} {l : List α} {r : α} {l'' : List α}
    (h : remove_scan cmp x l = some (r, l'')) :
    cmp x r = 0 ∧ ∃ m₁ m₂, l = m₁ ++ r :: m₂ ∧ l'' = m₁ ++ m₂ := by
  induction l generalizing r l'' with
  | nil => simp [remove_scan] at h
  | cons y ys ih =>
    cases ys with
    | nil => simp [remove_scan] at h
    | cons z zs =>
      by_cases c1 : cmp x y = -1
      · simp [remove_scan, c1] at h
      · by_cases c2 : cmp x y = 0
        · have h' : y = r ∧ z :: zs = l'' := by
            simpa [remove_scan, c1, c2] using h
          rcases h' with ⟨rfl, rfl⟩
          exact ⟨c2, [], z :: zs, rfl, rfl⟩
        · by_cases c3 : cmp x y = 1
          · have h' : (remove_scan cmp x (z :: zs)).map
                (fun p => (p.1, y :: p.2)) = some (r, l'') := by
              simpa [remove_scan, c1, c2, c3] using h
            rcases Option.map_eq_some'.mp h' with ⟨⟨r', l'⟩, hrl, heq⟩
            have hr : r' = r := congrArg Prod.fst heq
            have hll : y :: l' = l'' := congrArg Prod.snd heq
            subst hr
            rcases ih hrl with ⟨he, m₁, m₂, hsplit, hrest⟩
            exact ⟨he, y :: m₁, m₂, by simp [hsplit], by simp [← hll, hrest]⟩
          · simp [remove_scan, c1, c2, c3] at h

/-- A failed queues_remove returns the chain unchanged. -/
lemma queues_remove_none_eq (q : queues_t α) (x : α)
    (h : (queues_remove cmp q x).1 = none) : (queues_remove cmp q x).2 = q := by
  obtain ⟨l, n, b⟩ := q
  cases l with
  | nil => rfl
  | cons hd t =>
    by_cases c1 : cmp x hd = -1
    · simp [queues_remove, c1]
    · by_cases c2 : cmp x hd = 0
      · simp [queues_remove, c1, c2] at h
      · cases t with
        | nil => simp [queues_remove, c1, c2]
        | cons z zs =>
          by_cases d1 : cmp x (tailPayload z zs) = 0
          · simp [queues_remove, c1, c2, d1] at h
          · by_cases d2 : cmp x (tailPayload z zs) = 1
            · simp [queues_remove, c1, c2, d1, d2]
            · cases hscan : remove_scan cmp x (z :: zs) with
              | none => simp [queues_remove, c1, c2, d1, d2, hscan]
              | some p =>
                obtain ⟨r, l'⟩ := p
                simp [queues_remove, c1, c2, d1, d2, hscan] at h

/-- Structure of a successful queues_remove: exactly one node, holding a
payload equal to the key, is unlinked; the size counter drops by one and
the tail-null flag is never touched. -/
lemma queues_remove_some (q : queues_t α) (x r : α) (q' : queues_t α)
    (h : queues_remove cmp q x = (some r, q')) :
    cmp x r = 0 ∧ ∃ l₁ l₂, q.elems = l₁ ++ r :: l₂ ∧ q'.elems = l₁ ++ l₂ ∧
      q'.size = q.size - 1 ∧ q'.tail_null = q.tail_null := by
  obtain ⟨l, n, b⟩ := q
  cases l with
  | nil => simp [queues_remove] at h
  | cons hd t =>
    by_cases c1 : cmp x hd = -1
    · simp [queues_remove, c1] at h
    · by_cases c2 : cmp x hd = 0
      · have h' : hd = r ∧ (⟨t, n - 1, b⟩ : queues_t α) = q' := by
          simpa [queues_remove, c1, c2] using h
        rcases h' with ⟨rfl, rfl⟩
        exact ⟨c2, [], t, rfl, rfl, rfl, rfl⟩
      · cases t with
        | nil => simp [queues_remove, c1, c2] at h
        | cons z zs =>
          by_cases d1 : cmp x (tailPayload z zs) = 0
          · have h' : tailPayload z zs = r ∧
                (⟨(hd :: z :: zs).dropLast, n - 1, b⟩ : queues_t α) = q' := by
              simpa [queues_remove, c1, c2, d1] using h
            rcases h' with ⟨rfl, rfl⟩
            refine ⟨d1, (hd :: z :: zs).dropLast, [], ?_, by simp, rfl, rfl⟩
            have := cons_eq_dropLast_append hd (z :: zs)
            rw [tailPayload_cons] at this
            exact this
          · by_cases d2 : cmp x (tailPayload z zs) = 1
            · simp [queues_remove, c1, c2, d1, d2] at h
            · cases hscan : remove_scan cmp x (z :: zs) with
              | none => simp [queues_remove, c1, c2, d1, d2, hscan] at h
              | some p =>
                obtain ⟨r₀, l'⟩ := p
                have h' : r₀ = r ∧
                    (⟨hd :: l', n - 1, b⟩ : queues_t α) = q' := by
                  simpa [queues_remove, c1, c2, d1, d2, hscan] using h
                rcases h' with ⟨rfl, rfl⟩
                rcases remove_scan_decomp hscan with ⟨he, m₁, m₂, hsplit, hrest⟩
                exact ⟨he, hd :: m₁, m₂, by simp [hsplit], by simp [hrest],
                  rfl, rfl⟩

end RemoveFacts

section PreserveFacts

variable {α : Type} {cmp : α → α → Int}

/-- queues_remove returning NULL leaves the chain untouched, pair form. -/
lemma queues_remove_none_pair (q : queues_t α) (x : α) (q' : queues_t α)
    (h : queues_remove cmp q x = (none, q')) : q' = q := by
  have h1 : (queues_remove cmp q x).1 = none := by rw [h]
  have h2 := queues_remove_none_eq q x h1
  rw [h] at h2
  exact h2

/-- queues_remove keeps the chain sorted. -/
lemma queues_remove_pairwise (q : queues_t α) (x : α)
    (hp : q.elems.Pairwise (fun a b => cmp a b = -1)) :
    ((queues_remove cmp q x).2).elems.Pairwise (fun a b => cmp a b = -1) := by
  rcases hres : queues_remove cmp q x with ⟨res, q'⟩
  cases res with
  | none => exact (queues_remove_none_pair q x q' hres) ▸ hp
  | some r =>
    rcases queues_remove_some q x r q' hres with ⟨_, l₁, l₂, hsplit, hrest, _, _⟩
    have hsub : (l₁ ++ l₂).Sublist (l₁ ++ r :: l₂) :=
      List.Sublist.append_left (List.sublist_cons_self r l₂) l₁
    have hq' : q'.elems.Pairwise (fun a b => cmp a b = -1) := by
      rw [hrest]
      exact List.Pairwise.sublist hsub (hsplit ▸ hp)
    exact hq'

/-- The node list after queues_dequeue_front is a sublist of the one
before. -/
lemma queues_dequeue_front_sublist (q : queues_t α) :
    ((queues_dequeue_front q).2.elems).Sublist q.elems := by
  obtain ⟨l, n, b⟩ := q
  rcases l with _ | ⟨a, _ | ⟨c, t⟩⟩ <;>
    simp [queues_dequeue_front, List.sublist_cons_self]

/-- The node list after queues_dequeue_back is a sublist of the one
before. -/
lemma queues_dequeue_back_sublist (q : queues_t α) :
    ((queues_dequeue_back q).2.elems).Sublist q.elems := by
  obtain ⟨l, n, b⟩ := q
  by_cases hb : b = true
  · simp [queues_dequeue_back, hb]
  · rcases l with _ | ⟨a, _ | ⟨c, t⟩⟩ <;>
      simp [queues_dequeue_back, hb, List.dropLast_sublist]

/-- Chains reachable from a fresh chain stay pairwise sorted. -/
lemma qreach_pairwise (hl : CmpLaws cmp) (q : queues_t α)
    (hq : QReach cmp q) : q.elems.Pairwise (fun a b => cmp a b = -1) := by
  induction hq with
  | init => simp [queues_new]
  | enq q x _ ih => exact queues_enqueu_pairwise hl q x ih
  | rem q x _ ih => exact queues_remove_pairwise q x ih
  | deqf q _ ih => exact List.Pairwise.sublist (queues_dequeue_front_sublist q) ih
  | deqb q _ ih => exact List.Pairwise.sublist (queues_dequeue_back_sublist q) ih

end PreserveFacts

lemma natCmp_laws : CmpLaws natCmp := by
  constructor
  · intro a b
    unfold natCmp
    split_ifs <;> simp
  · intro a b
    unfold natCmp
    split_ifs <;> omega
  · intro a b c h1 h2
    unfold natCmp at h1 h2 ⊢
    split_ifs at h1 h2 ⊢ <;> omega
  · intro a b c h
    unfold natCmp at h ⊢
    split_ifs at h ⊢ <;> omega

/-- Claim C1: after k inserts of pairwise-distinct keys into a fresh
directory, the reported size equals k and every key is findable.  The
shallow directory satisfies this (checked here on the spec scenario
keys 5, 1, 3), but the deep directory reports record_size + k: its insert
increments t->size, documented as the total byte size of the data objects
and initialized to the record size, and never updates t->nmems, documented
as the number of elements, while dhashtabs_size returns t->size.  With
record size 8 and 3 distinct inserts the deep directory reports 11, not 3,
even though all three keys are findable. -/
theorem claimC1_eval :
    hashtabs_size exTabS = 3
  ∧ hashtabs_find natCmp exTabS 5 = some 5
  ∧ hashtabs_find natCmp exTabS 1 = some 1
  ∧ hashtabs_find natCmp exTabS 3 = some 3
  ∧ dhashtabs_size exTabD = 11
  ∧ dhashtabs_find natCmp exTabD 5 = some 5
  ∧ dhashtabs_find natCmp exTabD 1 = some 1
  ∧ dhashtabs_find natCmp exTabD 3 = some 3
  ∧ dhashtabs_size exTabD ≠ 3 := by decide

/-- Claim C6, counterexample: after insert 0, remove 0, insert 0 from a
fresh directory, bucket 0 holds one entry yet the load counter is 0 — the
removal that emptied the bucket decremented load, and the insert into the
still-allocated bucket did not re-increment it.  The claimed equality of
load with the number of nonempty buckets fails on this reachable state. -/
theorem claimC6_cex :
    exTab6.load = 0 ∧ nonemptyCount exTab6 = 1
  ∧ exTab6.load ≠ nonemptyCount exTab6 := by decide

/-- Claim C9, counterexample: with three entries in one bucket the load
factor is 3, and an insert landing in a previously NULL bucket drops it to
2, so the load factor is not non-decreasing across every insert at fixed
capacity; and rehashing a single-entry directory leaves the load factor at
1 = 1/1, so the post-rehash load factor is not strictly smaller at fixed
entry count. -/
theorem claimC9_cex :
    hashtabs_loadfactor (hashtabs_insert natCmp id exTab9a 1)
      < hashtabs_loadfactor exTab9a
  ∧ ¬ hashtabs_loadfactor (hashtabs_rehash natCmp id exTab9b)
      < hashtabs_loadfactor exTab9b := by decide

/-- Claim C10: removing the last remaining element of a chain through
queues_remove leaves the head pointer NULL but the tail pointer still aimed
at the freed node — unlike both dequeues, the head-match branch of
queues_remove never nulls the tail.  On the reachable state
queues_remove(enqueue(new, 7), 7) the node list is empty (head NULL) while
the tail is non-NULL, refuting the head-null-iff-tail-null invariant and
leaving a dangling pointer. -/
theorem claimC10_eval :
    exQ10.elems = [] ∧ exQ10.size = 0 ∧ exQ10.tail_null = false := by decide

/-- The ladder index of a directory is unchanged by an insert. -/
lemma hashtabs_insert_cap_index {α : Type} (cmp : α → α → Int) (hash : α → Nat)
    (t : hashtabs_t α) (x : α) :
    (hashtabs_insert cmp hash t x).cap_index = t.cap_index := by
  cases hA : t.A (hash x % hashtabs_capacity t) <;> simp [hashtabs_insert, hA]

/-- The capacity of a directory is unchanged by an insert. -/
lemma hashtabs_insert_capacity {α : Type} (cmp : α → α → Int) (hash : α → Nat)
    (t : hashtabs_t α) (x : α) :
    hashtabs_capacity (hashtabs_insert cmp hash t x) = hashtabs_capacity t := by
  unfold hashtabs_capacity
  rw [hashtabs_insert_cap_index]

/-- Claim C2: every directory insert, shallow or deep, increments the
reported size counter by exactly one, unconditionally — also when the
selected chain silently rejects the value as a duplicate, in which case the
entry multiset of the directory is unchanged while the counter still rises,
so afterwards the counter exceeds the true membership count by one relative
to its pre-insert relation. -/
theorem claimC2 {α : Type} (cmp : α → α → Int) (hash : α → Nat) :
    (∀ (t : hashtabs_t α) (x : α),
      hashtabs_size (hashtabs_insert cmp hash t x) = hashtabs_size t + 1)
  ∧ (∀ (t : dhashtabs_t α) (x : α),
      dhashtabs_size (dhashtabs_insert cmp hash t x) = dhashtabs_size t + 1)
  ∧ (∀ (hl : CmpLaws cmp) (t : hashtabs_t α) (x y : α) (q : queues_t α),
      t.A (hash x % hashtabs_capacity t) = some q →
      q.elems.Pairwise (fun a b => cmp a b = -1) →
      y ∈ q.elems → cmp x y = 0 →
      entries (hashtabs_insert cmp hash t x) = entries t) := by
  refine ⟨?_, ?_, ?_⟩
  · intro t x
    cases hA : t.A (hash x % hashtabs_capacity t) <;>
      simp [hashtabs_insert, hashtabs_size, hA]
  · intro t x
    cases hA : t.A (hash x % dhashtabs_capacity t) <;>
      simp [dhashtabs_insert, dhashtabs_size, hA]
  · intro hl t x y q hA hp hy h0
    have hnoop := queues_enqueu_noop hl q hp hy h0
    have hchains : ∀ i, chainElems (hashtabs_insert cmp hash t x) i
        = chainElems t i := by
      intro i
      by_cases hi : i = hash x % hashtabs_capacity t
      · simp [chainElems, hashtabs_insert, hA, hi, hnoop]
      · simp [chainElems, hashtabs_insert, hA, hi]
    unfold entries
    rw [hashtabs_insert_capacity]
    exact congrArg List.flatten
      (List.map_congr_left (fun i _ => hchains i))

/-- Claim C2 witness: a concrete duplicate insert (key 3 into the directory
already holding 5, 1, 3) leaves the traversal entries unchanged while both
size counters rise by one on concrete inserts. -/
theorem claimC2_w :
    hashtabs_size (hashtabs_insert natCmp id exTabS 3) = hashtabs_size exTabS + 1
  ∧ entries (hashtabs_insert natCmp id exTabS 3) = entries exTabS := by
  refine ⟨(claimC2 natCmp id).1 exTabS 3, ?_⟩
  exact (claimC2 natCmp id).2.2 natCmp_laws exTabS 3 3 ⟨[3], 1, false⟩
    (by decide) (by decide) (by decide) (by decide)

/-- Claim C3: on a sorted chain, shallow or deep, inserting a value that
compares equal to an existing member is a no-op — the chain object (node
list, counters, tail flag) is returned entirely unchanged, and the void
enqueue reports nothing to its caller. -/
theorem claimC3 {α : Type} (cmp : α → α → Int) (hl : CmpLaws cmp)
    (l : List α) (hp : l.Pairwise (fun a b => cmp a b = -1)) (x y : α)
    (hy : y ∈ l) (h0 : cmp x y = 0) :
    (∀ n b, queues_enqueu cmp ⟨l, n, b⟩ x = ⟨l, n, b⟩)
  ∧ (∀ s n b, dqueues_enqueu cmp ⟨l, s, n, b⟩ x = ⟨l, s, n, b⟩) :=
  ⟨fun n b => queues_enqueu_noop hl ⟨l, n, b⟩ hp hy h0,
   fun s n b => dqueues_enqueu_noop hl ⟨l, s, n, b⟩ hp hy h0⟩

/-- Claim C3 witness: inserting 3 into the chain 1, 3, 5 changes nothing in
either ownership variant. -/
theorem claimC3_w :
    queues_enqueu natCmp ⟨[1, 3, 5], 3, false⟩ 3 = ⟨[1, 3, 5], 3, false⟩
  ∧ dqueues_enqueu natCmp ⟨[1, 3, 5], 8, 3, false⟩ 3 = ⟨[1, 3, 5], 8, 3, false⟩ :=
  ⟨(claimC3 natCmp natCmp_laws [1, 3, 5] (by decide) 3 3 (by decide)
      (by decide)).1 3 false,
   (claimC3 natCmp natCmp_laws [1, 3, 5] (by decide) 3 3 (by decide)
      (by decide)).2 8 3 false⟩

/-- Claim C4: under any comparator realizing a linear order with values in
-1/0/1, every chain reachable from a fresh chain by any interleaving of
enqueues, keyed removals and dequeues is strictly ascending and
duplicate-free: adjacent entries compare below zero and no two entries
compare equal. -/
theorem claimC4 {α : Type} (cmp : α → α → Int) (hl : CmpLaws cmp)
    (q : queues_t α) (hq : QReach cmp q) :
    List.Chain' (fun a b => cmp a b < 0) q.elems
  ∧ q.elems.Pairwise (fun a b => cmp a b ≠ 0) := by
  have hp := qreach_pairwise hl q hq
  constructor
  · exact (hp.imp (fun h => by omega)).chain'
  · exact hp.imp (fun h => by omega)

/-- Claim C4 witness: the chain reached by enqueuing 3, 1, 5 and removing 3
is strictly ascending and duplicate-free. -/
theorem claimC4_w :
    List.Chain' (fun a b => natCmp a b < 0) exQ4.elems
  ∧ exQ4.elems.Pairwise (fun a b => natCmp a b ≠ 0) :=
  claimC4 natCmp natCmp_laws exQ4
    (QReach.rem _ 3 (QReach.enq _ 5 (QReach.enq _ 1
      (QReach.enq _ 3 QReach.init))))

section CapacityFacts

/-- Every index the capacity scan steps over holds a ladder value <= n. -/
lemma cap_scan_prev (n : Nat) : ∀ (l : List Nat), ∀ i < cap_scan n l,
    l.getD i 0 ≤ n := by
  intro l
  induction l with
  | nil => simp [cap_scan]
  | cons p ps ih =>
    by_cases hp : p ≤ n
    · intro i hi
      cases i with
      | zero => simpa using hp
      | succ j =>
        simp only [List.getD_cons_succ]
        exact ih j (by simpa [cap_scan, hp] using hi)
    · simp [cap_scan, hp]

/-- The capacity scan stops at the first ladder value exceeding n. -/
lemma cap_scan_at (n : Nat) : ∀ (l : List Nat), cap_scan n l < l.length →
    n < l.getD (cap_scan n l) 0 := by
  intro l
  induction l with
  | nil => simp [cap_scan]
  | cons p ps ih =>
    by_cases hp : p ≤ n
    · intro h
      simp only [cap_scan, hp, if_pos, List.getD_cons_succ]
      exact ih (by simpa [cap_scan, hp] using h)
    · intro _
      simpa [cap_scan, hp] using Nat.lt_of_not_le hp

lemma cap_scan_le (n : Nat) : ∀ (l : List Nat), cap_scan n l ≤ l.length := by
  intro l
  induction l with
  | nil => simp [cap_scan]
  | cons p ps ih =>
    by_cases hp : p ≤ n
    · simpa [cap_scan, hp] using ih
    · simp [cap_scan, hp]

lemma get_cap_index_le (n : Nat) : get_cap_index n ≤ 45 := by
  have h := cap_scan_le n (primes.take NPRIMES)
  have hlen : (primes.take NPRIMES).length = 45 := by decide
  rw [hlen] at h
  exact h

lemma getD_mem_of_lt {l : List Nat} {i : Nat} (h : i < l.length) :
    l.getD i 0 ∈ l := by
  rw [List.getD_eq_getElem?_getD, List.getElem?_eq_getElem h]
  simpa using List.getElem_mem h

lemma sortedNatB_chain' : ∀ (l : List Nat), sortedNatB l = true →
    List.Chain' (· < ·) l
  | [], _ => List.chain'_nil
  | [_], _ => by simp
  | a :: b :: t, h => by
    have h' : a < b ∧ sortedNatB (b :: t) = true := by
      simpa [sortedNatB, Bool.and_eq_true, decide_eq_true_eq] using h
    exact List.chain'_cons.mpr ⟨h'.1, sortedNatB_chain' (b :: t) h'.2⟩

lemma primes_pairwise : primes.Pairwise (· < ·) :=
  List.chain'_iff_pairwise.mp (sortedNatB_chain' primes (by decide))

/-- The entries the capacity scan runs over agree with the full ladder. -/
lemma primes_take_getD {i : Nat} (h : i < 45) :
    (primes.take NPRIMES).getD i 0 = primes.getD i 0 := by
  have h46 : i < primes.length := by
    have : primes.length = 46 := by decide
    omega
  have ht : i < (primes.take NPRIMES).length := by
    have : (primes.take NPRIMES).length = 45 := by decide
    omega
  rw [List.getD_eq_getElem?_getD, List.getD_eq_getElem?_getD,
    List.getElem?_eq_getElem h46, List.getElem?_eq_getElem ht]
  simp [List.getElem_take]

/-- The selected capacity: a ladder member, above n while the ladder is not
exhausted, and the least ladder member above n. -/
lemma get_cap_index_spec (n : Nat) :
    primes.getD (get_cap_index n) 0 ∈ primes
  ∧ (n < C_SIZE_MAX → n < primes.getD (get_cap_index n) 0)
  ∧ (∀ p ∈ primes, n < p → primes.getD (get_cap_index n) 0 ≤ p) := by
  have hk45 := get_cap_index_le n
  have hlen : primes.length = 46 := by decide
  refine ⟨getD_mem_of_lt (by omega), ?_, ?_⟩
  · intro hn
    rcases Nat.lt_or_ge (get_cap_index n) 45 with hk | hk
    · have := cap_scan_at n (primes.take NPRIMES)
        (by simpa [get_cap_index, (by decide : (primes.take NPRIMES).length = 45)]
          using hk)
      rw [show cap_scan n (primes.take NPRIMES) = get_cap_index n from rfl,
        primes_take_getD hk] at this
      exact this
    · have hk45' : get_cap_index n = 45 := by omega
      rw [hk45']
      simpa using hn
  · intro p hp hnp
    rcases List.mem_iff_getElem.mp hp with ⟨j, hj, hjp⟩
    have hjD : primes.getD j 0 = p := by
      rw [List.getD_eq_getElem?_getD, List.getElem?_eq_getElem hj, hjp]
      rfl
    have hkj : get_cap_index n ≤ j := by
      by_contra hlt
      push_neg at hlt
      have hle := cap_scan_prev n (primes.take NPRIMES) j
        (by simpa [get_cap_index] using hlt)
      rw [primes_take_getD (by omega)] at hle
      omega
    rcases Nat.eq_or_lt_of_le hkj with rfl | hkj'
    · omega
    · have := List.pairwise_iff_getElem.mp primes_pairwise
        (get_cap_index n) j (by omega) (by rw [hlen] at hj ⊢; omega) hkj'
      have hkb : get_cap_index n < primes.length := by omega
      have hjb : j < primes.length := by omega
      have hkD : primes.getD (get_cap_index n) 0 = primes[get_cap_index n] := by
        rw [List.getD_eq_getElem?_getD, List.getElem?_eq_getElem hkb]
        rfl
      have hjD2 : primes.getD j 0 = primes[j] := by
        rw [List.getD_eq_getElem?_getD, List.getElem?_eq_getElem hjb]
        rfl
      omega

end CapacityFacts

/-- Claim C8: directory construction (both variants share the code) selects
as capacity the smallest prime-ladder member strictly greater than the
expected count n — clamping to the terminal SIZE_MAX sentinel once the
ladder is exhausted (at n = SIZE_MAX the capacity stays SIZE_MAX) — and
calloc yields a bucket array with every slot NULL. -/
theorem claimC8 {α : Type} (n s : Nat) (hn : n ≤ C_SIZE_MAX) :
    (∀ i, (hashtabs_new n : hashtabs_t α).A i = none)
  ∧ (∀ i, (dhashtabs_new n s : dhashtabs_t α).A i = none)
  ∧ dhashtabs_capacity (dhashtabs_new n s : dhashtabs_t α)
      = hashtabs_capacity (hashtabs_new n : hashtabs_t α)
  ∧ hashtabs_capacity (hashtabs_new n : hashtabs_t α) ∈ primes
  ∧ (n < C_SIZE_MAX → n < hashtabs_capacity (hashtabs_new n : hashtabs_t α)
      ∧ ∀ p ∈ primes, n < p →
          hashtabs_capacity (hashtabs_new n : hashtabs_t α) ≤ p)
  ∧ (n = C_SIZE_MAX →
      hashtabs_capacity (hashtabs_new n : hashtabs_t α) = C_SIZE_MAX) := by
  rcases get_cap_index_spec n with ⟨hmem, hgt, hleast⟩
  refine ⟨fun i => rfl, fun i => rfl, rfl, hmem, fun hlt => ⟨hgt hlt, hleast⟩, ?_⟩
  intro hmax
  subst hmax
  have h45 : get_cap_index C_SIZE_MAX = 45 := by decide
  show primes.getD (get_cap_index C_SIZE_MAX) 0 = C_SIZE_MAX
  rw [h45]
  rfl

/-- Claim C8 witness: a directory expecting 5 elements gets capacity 11, the
first ladder prime exceeding 5, with all buckets NULL. -/
theorem claimC8_w :
    hashtabs_capacity (hashtabs_new 5 : hashtabs_t Nat) = 11
  ∧ (5 < hashtabs_capacity (hashtabs_new 5 : hashtabs_t Nat)
      ∧ ∀ p ∈ primes, 5 < p →
          hashtabs_capacity (hashtabs_new 5 : hashtabs_t Nat) ≤ p)
  ∧ (∀ i, (hashtabs_new 5 : hashtabs_t Nat).A i = none) :=
  ⟨by decide,
   (claimC8 (α := Nat) 5 8 (by decide)).2.2.2.2.1 (by decide),
   (claimC8 (α := Nat) 5 8 (by decide)).1⟩

section CountFacts

variable {α : Type} {cmp : α → α → Int} {hash : α → Nat}

lemma isEmpty_false_of_ne {l : List α} (h : l ≠ []) : l.isEmpty = false := by
  cases l with
  | nil => exact absurd rfl h
  | cons a t => rfl

lemma countP_agree {f g : Nat → Bool} :
    ∀ (idxs : List Nat), (∀ i ∈ idxs, f i = g i) →
      idxs.countP f = idxs.countP g := by
  intro idxs
  induction idxs with
  | nil => simp
  | cons i is ih =>
    intro h
    rw [List.countP_cons, List.countP_cons,
      ih (fun j hj => h j (List.mem_cons_of_mem i hj)), h i (by simp)]

/-- Flipping the predicate from false to true at one index of a
duplicate-free index list raises the count by one. -/
lemma countP_bump {f g : Nat → Bool} {s : Nat} (hfs : f s = false)
    (hgs : g s = true) (hagree : ∀ i, i ≠ s → f i = g i) :
    ∀ (idxs : List Nat), idxs.Nodup → s ∈ idxs →
      idxs.countP g = idxs.countP f + 1 := by
  intro idxs
  induction idxs with
  | nil =>
    intro _ h
    simp at h
  | cons i is ih =>
    intro hnod hs
    have hnod' := List.nodup_cons.mp hnod
    rcases List.mem_cons.mp hs with rfl | hs'
    · have hfg : is.countP f = is.countP g :=
        countP_agree is (fun j hj => hagree j (by rintro rfl; exact hnod'.1 hj))
      simp [List.countP_cons, hgs, hfs]
      omega
    · have hi : i ≠ s := by rintro rfl; exact hnod'.1 hs'
      rw [List.countP_cons, List.countP_cons, hagree i hi, ih hnod'.2 hs']
      omega

/-- The invariant maintained by inserts alone: load equals the number of
nonempty buckets, the capacity is positive, and allocated buckets are never
empty. -/
lemma hreach_ins_inv (t : hashtabs_t α) (ht : HReachIns cmp hash t) :
    t.load = nonemptyCount t ∧ 0 < hashtabs_capacity t ∧
      (∀ i q, t.A i = some q → q.elems ≠ []) := by
  induction ht with
  | init n =>
    refine ⟨?_, ?_, ?_⟩
    · show (0 : Nat) = nonemptyCount (hashtabs_new n)
      unfold nonemptyCount
      rw [countP_agree (g := fun _ => false) _
        (by intro i _; simp [chainElems, hashtabs_new])]
      simp
    · have h45 := get_cap_index_le n
      have hlen : primes.length = 46 := by decide
      have hci : (hashtabs_new n : hashtabs_t α).cap_index = get_cap_index n := rfl
      have hmem : hashtabs_capacity (hashtabs_new n : hashtabs_t α) ∈ primes :=
        getD_mem_of_lt (by rw [hci]; omega)
      have hpos : ∀ p ∈ primes, 0 < p := by decide
      exact hpos _ hmem
    · intro i q h
      simp [hashtabs_new] at h
  | ins t x _ ih =>
    obtain ⟨hload, hcap, hne⟩ := ih
    have hcap' : hashtabs_capacity (hashtabs_insert cmp hash t x)
        = hashtabs_capacity t := hashtabs_insert_capacity cmp hash t x
    have hvallt : hash x % hashtabs_capacity t < hashtabs_capacity t :=
      Nat.mod_lt _ hcap
    cases hA : t.A (hash x % hashtabs_capacity t) with
    | none =>
      refine ⟨?_, by rwa [hcap'], ?_⟩
      · have hload' : (hashtabs_insert cmp hash t x).load = t.load + 1 := by
          simp [hashtabs_insert, hA]
        have h1 : (queues_enqueu cmp queues_new x).elems.isEmpty = false :=
          isEmpty_false_of_ne (queues_enqueu_ne_nil queues_new x)
        have hcount : nonemptyCount (hashtabs_insert cmp hash t x)
            = nonemptyCount t + 1 := by
          unfold nonemptyCount
          rw [hcap']
          refine countP_bump (s := hash x % hashtabs_capacity t) ?_ ?_ ?_ _
            (List.nodup_range _) (List.mem_range.mpr hvallt)
          · simp [chainElems, hA]
          · simp [chainElems, hashtabs_insert, hA, h1]
          · intro i hi
            simp [chainElems, hashtabs_insert, hA, hi]
        rw [hload', hcount, hload]
      · intro i q h
        by_cases hi : i = hash x % hashtabs_capacity t
        · have hq : some (queues_enqueu cmp queues_new x) = some q := by
            simpa [hashtabs_insert, hA, hi] using h
          have hq' : q = queues_enqueu cmp queues_new x :=
            (Option.some.injEq _ _ ▸ hq).symm
          rw [hq']
          exact queues_enqueu_ne_nil queues_new x
        · exact hne i q (by simpa [hashtabs_insert, hA, hi] using h)
    | some q0 =>
      have hq0ne : q0.elems ≠ [] := hne _ q0 hA
      refine ⟨?_, by rwa [hcap'], ?_⟩
      · have hload' : (hashtabs_insert cmp hash t x).load = t.load := by
          simp [hashtabs_insert, hA]
        have h1 : (queues_enqueu cmp q0 x).elems.isEmpty = false :=
          isEmpty_false_of_ne (queues_enqueu_ne_nil q0 x)
        have h0 : q0.elems.isEmpty = false := isEmpty_false_of_ne hq0ne
        have hcount : nonemptyCount (hashtabs_insert cmp hash t x)
            = nonemptyCount t := by
          unfold nonemptyCount
          rw [hcap']
          refine countP_agree _ ?_
          intro i _
          by_cases hi : i = hash x % hashtabs_capacity t
          · simp [chainElems, hashtabs_insert, hA, hi, h1, h0]
          · simp [chainElems, hashtabs_insert, hA, hi]
        rw [hload', hcount, hload]
      · intro i q h
        by_cases hi : i = hash x % hashtabs_capacity t
        · have hq : some (queues_enqueu cmp q0 x) = some q := by
            simpa [hashtabs_insert, hA, hi] using h
          have hq' : q = queues_enqueu cmp q0 x :=
            (Option.some.injEq _ _ ▸ hq).symm
          rw [hq']
          exact queues_enqueu_ne_nil q0 x
        · exact hne i q (by simpa [hashtabs_insert, hA, hi] using h)

end CountFacts

/-- Claim C6 (amended): for every directory state reachable from a fresh
directory by inserts alone, the load counter equals the number of buckets
holding at least one entry; but once a bucket has been emptied by removal,
an insert landing in that still-allocated bucket does not re-increment
load, so afterwards load is exactly one less than the number of nonempty
buckets. -/
theorem claimC6 {α : Type} (cmp : α → α → Int) (hash : α → Nat) :
    (∀ t : hashtabs_t α, HReachIns cmp hash t → t.load = nonemptyCount t)
  ∧ (∀ (t : hashtabs_t α) (x : α) (q : queues_t α),
      t.A (hash x % hashtabs_capacity t) = some q → q.elems = [] →
      0 < hashtabs_capacity t → t.load = nonemptyCount t →
      (hashtabs_insert cmp hash t x).load + 1
        = nonemptyCount (hashtabs_insert cmp hash t x)) := by
  constructor
  · intro t ht
    exact (hreach_ins_inv t ht).1
  · intro t x q hA hq0 hcap hload
    have hcap' : hashtabs_capacity (hashtabs_insert cmp hash t x)
        = hashtabs_capacity t := hashtabs_insert_capacity cmp hash t x
    have hvallt : hash x % hashtabs_capacity t < hashtabs_capacity t :=
      Nat.mod_lt _ hcap
    have hload' : (hashtabs_insert cmp hash t x).load = t.load := by
      simp [hashtabs_insert, hA]
    have h1 : (queues_enqueu cmp q x).elems.isEmpty = false :=
      isEmpty_false_of_ne (queues_enqueu_ne_nil q x)
    have hcount : nonemptyCount (hashtabs_insert cmp hash t x)
        = nonemptyCount t + 1 := by
      unfold nonemptyCount
      rw [hcap']
      refine countP_bump (s := hash x % hashtabs_capacity t) ?_ ?_ ?_ _
        (List.nodup_range _) (List.mem_range.mpr hvallt)
      · simp [chainElems, hA, hq0]
      · simp [chainElems, hashtabs_insert, hA, h1]
      · intro i hi
        simp [chainElems, hashtabs_insert, hA, hi]
    rw [hload', hcount, hload]

/-- Claim C6 witness: the invariant holds after one insert into a fresh
directory, and the undercount after the empty-then-refill pattern is
exactly one. -/
theorem claimC6_w :
    (hashtabs_insert natCmp id (hashtabs_new 5) 0).load
      = nonemptyCount (hashtabs_insert natCmp id (hashtabs_new 5) 0)
  ∧ (hashtabs_insert natCmp id exTab6m 0).load + 1
      = nonemptyCount (hashtabs_insert natCmp id exTab6m 0) :=
  ⟨(claimC6 natCmp id).1 _ (HReachIns.ins _ 0 (HReachIns.init 5)),
   (claimC6 natCmp id).2 exTab6m 0 ⟨[], 0, false⟩ (by decide) rfl
     (by decide) (by decide)⟩

section DirectoryFacts

variable {α : Type} {cmp : α → α → Int}

/-- Every bucket free of members equal to x makes the directory scan miss. -/
lemma find_buckets_none {t : hashtabs_t α} {x : α} :
    ∀ idxs : List Nat, (∀ i ∈ idxs, ∀ z ∈ chainElems t i, cmp x z ≠ 0) →
      find_buckets cmp t x idxs = none := by
  intro idxs
  induction idxs with
  | nil => intro _; rfl
  | cons j js ih =>
    intro h
    have hfj : queues_find cmp x (chainElems t j) = none :=
      queues_find_none (fun z hz => h j (by simp) z hz)
    simp only [find_buckets, hfj]
    exact ih (fun i hi z hz => h i (by simp [hi]) z hz)

/-- A successful directory removal scan identifies the hit bucket. -/
lemma remove_buckets_some {t : hashtabs_t α} {x : α} {i : Nat} {r : α}
    {q' : queues_t α} :
    ∀ {idxs : List Nat}, remove_buckets cmp t x idxs = some (i, r, q') →
      i ∈ idxs ∧ ∃ q0, t.A i = some q0 ∧
        queues_remove cmp q0 x = (some r, q') := by
  intro idxs
  induction idxs with
  | nil =>
    intro h
    simp [remove_buckets] at h
  | cons j js ih =>
    intro h
    cases hA : t.A j with
    | none =>
      have h' : remove_buckets cmp t x js = some (i, r, q') := by
        simpa [remove_buckets, hA] using h
      rcases ih h' with ⟨hm, q0, hq0, hrm⟩
      exact ⟨List.mem_cons_of_mem j hm, q0, hq0, hrm⟩
    | some q0 =>
      rcases hres : queues_remove cmp q0 x with ⟨res, q2⟩
      cases res with
      | none =>
        have h' : remove_buckets cmp t x js = some (i, r, q') := by
          simpa [remove_buckets, hA, hres] using h
        rcases ih h' with ⟨hm, q1, hq1, hrm⟩
        exact ⟨List.mem_cons_of_mem j hm, q1, hq1, hrm⟩
      | some r2 =>
        have h' : j = i ∧ r2 = r ∧ q2 = q' := by
          have h2 : some (j, r2, q2) = some (i, r, q') := by
            simpa [remove_buckets, hA, hres] using h
          simpa [Prod.ext_iff] using h2
        obtain ⟨rfl, rfl, rfl⟩ := h'
        exact ⟨by simp, q0, hA, hres⟩

/-- Membership in a bucket gives membership in the full traversal. -/
lemma mem_entries_of_mem_chain {t : hashtabs_t α} {i : Nat} {z : α}
    (hi : i < hashtabs_capacity t) (hz : z ∈ chainElems t i) :
    z ∈ entries t := by
  unfold entries
  rw [List.mem_flatten]
  exact ⟨chainElems t i, List.mem_map.mpr ⟨i, List.mem_range.mpr hi, rfl⟩, hz⟩

end DirectoryFacts

/-- Claim C7: on a well-formed directory, a successful keyed removal makes a
subsequent find of the same key miss, and the size counter drops by exactly
one. -/
theorem claimC7 {α : Type} (cmp : α → α → Int) (hl : CmpLaws cmp)
    (t : hashtabs_t α) (hinv : hashtabs_inv cmp t) (x r : α)
    (t' : hashtabs_t α) (hrem : hashtabs_remove cmp t x = (some r, t')) :
    hashtabs_find cmp t' x = none ∧ hashtabs_size t' + 1 = hashtabs_size t := by
  unfold hashtabs_remove at hrem
  rcases hscan : remove_buckets cmp t x (List.range (hashtabs_capacity t))
    with _ | ⟨i, r0, q'⟩
  · rw [hscan] at hrem
    simp at hrem
  · rw [hscan] at hrem
    have hr0 : r0 = r := by simpa using congrArg Prod.fst hrem
    have ht' : t' =
        { size := t.size - 1,
          load := if queues_size q' = 0 then t.load - 1 else t.load,
          cap_index := t.cap_index,
          A := fun j => if j = i then some q' else t.A j } := by
      have h2 := congrArg Prod.snd hrem
      simpa using h2.symm
    rcases remove_buckets_some hscan with ⟨hiidx, q0, hA, hq⟩
    have hilt : i < hashtabs_capacity t := List.mem_range.mp hiidx
    rcases queues_remove_some q0 x r0 q' hq with
      ⟨hxr, l₁, l₂, hq0elems, hq'elems, _, _⟩
    have hchain_i : chainElems t i = q0.elems := by simp [chainElems, hA]
    have hr0mem : r0 ∈ chainElems t i := by
      rw [hchain_i, hq0elems]
      simp
    have hsorted := hinv.sorted_chains i hilt
    rw [hchain_i, hq0elems] at hsorted
    have hcapt' : hashtabs_capacity t' = hashtabs_capacity t := by
      rw [ht']
      rfl
    have hnoeq : ∀ j ∈ List.range (hashtabs_capacity t'),
        ∀ z ∈ chainElems t' j, cmp x z ≠ 0 := by
      intro j hj z hz h0
      have hjlt : j < hashtabs_capacity t := by
        rw [← hcapt']
        exact List.mem_range.mp hj
      have hr0z : cmp r0 z = 0 := by
        have := hl.eq_congr x r0 z hxr
        omega
      by_cases hji : j = i
      · subst hji
        have hz' : z ∈ l₁ ++ l₂ := by
          have hcj : chainElems t' j = q'.elems := by
            rw [ht']
            simp [chainElems]
          rw [hcj, hq'elems] at hz
          exact hz
        rcases List.mem_append.mp hz' with hz1 | hz2
        · have hcross := (List.pairwise_append.mp hsorted).2.2 z hz1 r0 (by simp)
          have hflip := hl.flip z r0
          omega
        · have hp2 := (List.pairwise_append.mp hsorted).2.1
          have := (List.pairwise_cons.mp hp2).1 z hz2
          omega
      · have hz' : z ∈ chainElems t j := by
          have hcj : chainElems t' j = chainElems t j := by
            rw [ht']
            simp [chainElems, hji]
          rwa [hcj] at hz
        exact hinv.cross i hilt j hjlt (fun he => hji he.symm) r0 hr0mem z hz' hr0z
    constructor
    · unfold hashtabs_find
      exact find_buckets_none _ hnoeq
    · have hge := hinv.size_ge
      have hr0ent : r0 ∈ entries t := mem_entries_of_mem_chain hilt hr0mem
      have hlen : 0 < (entries t).length := List.length_pos_of_mem hr0ent
      have hsize' : t'.size = t.size - 1 := by rw [ht']
      show t'.size + 1 = t.size
      omega

/-- Claim C7 witness: removing key 1 from the directory holding 5, 1, 3
makes find(1) miss and drops size from 3 to 2. -/
theorem claimC7_w :
    hashtabs_find natCmp (hashtabs_remove natCmp exTabS 1).2 1 = none
  ∧ hashtabs_size (hashtabs_remove natCmp exTabS 1).2 + 1
      = hashtabs_size exTabS :=
  claimC7 natCmp natCmp_laws exTabS ⟨by decide, by decide, by decide⟩ 1 1
    (hashtabs_remove natCmp exTabS 1).2 rfl

section RehashFacts

variable {α : Type} {cmp : α → α → Int} {hash : α → Nat}

lemma ne0_symm (hl : CmpLaws cmp) :
    Symmetric (fun a b : α => cmp a b ≠ 0) := by
  intro a b h h0
  exact h (by have := hl.flip a b; omega)

lemma entries_new (n : Nat) : entries (hashtabs_new n : hashtabs_t α) = [] := by
  unfold entries
  rw [List.flatten_eq_nil_iff]
  intro l hl'
  rcases List.mem_map.mp hl' with ⟨i, _, rfl⟩
  rfl

/-- The bucket contents after an insert: the selected bucket gets the
enqueue (of a fresh chain when the slot was NULL), the rest are untouched. -/
lemma chainElems_insert (t : hashtabs_t α) (x : α) (i : Nat) :
    chainElems (hashtabs_insert cmp hash t x) i =
      if i = hash x % hashtabs_capacity t then
        (queues_enqueu cmp ((t.A i).getD queues_new) x).elems
      else chainElems t i := by
  cases hA : t.A (hash x % hashtabs_capacity t) with
  | none =>
    by_cases hi : i = hash x % hashtabs_capacity t
    · subst hi
      simp [chainElems, hashtabs_insert, hA]
    · simp [chainElems, hashtabs_insert, hA, hi]
  | some q0 =>
    by_cases hi : i = hash x % hashtabs_capacity t
    · subst hi
      simp [chainElems, hashtabs_insert, hA]
    · simp [chainElems, hashtabs_insert, hA, hi]

/-- Changing one slot of the bucket map by consing x permutes the flattened
traversal by consing x. -/
lemma flatten_update_perm {f g : Nat → List α} {s : Nat} {x : α}
    (hs : (g s).Perm (x :: f s)) (hother : ∀ i, i ≠ s → g i = f i) :
    ∀ (idxs : List Nat), idxs.Nodup → s ∈ idxs →
      ((idxs.map g).flatten).Perm (x :: (idxs.map f).flatten) := by
  intro idxs
  induction idxs with
  | nil =>
    intro _ h
    simp at h
  | cons j js ih =>
    intro hnod hmem
    have hnod' := List.nodup_cons.mp hnod
    rcases List.mem_cons.mp hmem with rfl | hs'
    · have hrest : js.map g = js.map f :=
        List.map_congr_left (fun i hi => hother i (by rintro rfl; exact hnod'.1 hi))
      simp only [List.map_cons, List.flatten_cons, hrest]
      exact hs.append_right _
    · have hj : g j = f j := hother j (by rintro rfl; exact hnod'.1 hs')
      simp only [List.map_cons, List.flatten_cons, hj]
      exact (List.Perm.append_left (f j) (ih hnod'.2 hs')).trans List.perm_middle

/-- One insert of a key not comparator-equal to any present entry: the
traversal gains exactly that key and the buckets stay sorted. -/
lemma entries_insert_perm (hl : CmpLaws cmp) (t : hashtabs_t α) (x : α)
    (hcap : 0 < hashtabs_capacity t)
    (hsorted : ∀ i, (chainElems t i).Pairwise (fun a b => cmp a b = -1))
    (hnoeq : ∀ y ∈ entries t, cmp x y ≠ 0) :
    (entries (hashtabs_insert cmp hash t x)).Perm (x :: entries t)
  ∧ (∀ i, (chainElems (hashtabs_insert cmp hash t x) i).Pairwise
      (fun a b => cmp a b = -1)) := by
  have hvlt : hash x % hashtabs_capacity t < hashtabs_capacity t :=
    Nat.mod_lt _ hcap
  have hnoeqc : ∀ y ∈ chainElems t (hash x % hashtabs_capacity t),
      cmp x y ≠ 0 := fun y hy => hnoeq y (mem_entries_of_mem_chain hvlt hy)
  have hq : chainElems t (hash x % hashtabs_capacity t)
      = ((t.A (hash x % hashtabs_capacity t)).getD queues_new).elems := by
    cases hA : t.A (hash x % hashtabs_capacity t) <;>
      simp [chainElems, hA, queues_new]
  have hpq : ((t.A (hash x % hashtabs_capacity t)).getD queues_new).elems.Pairwise
      (fun a b => cmp a b = -1) := hq ▸ hsorted _
  have hnoeqq : ∀ y ∈ ((t.A (hash x % hashtabs_capacity t)).getD queues_new).elems,
      cmp x y ≠ 0 := hq ▸ hnoeqc
  rcases queues_enqueu_insert hl _ x hpq hnoeqq with ⟨l₁, l₂, hsplit, helems⟩
  have hchainperm : (chainElems (hashtabs_insert cmp hash t x)
      (hash x % hashtabs_capacity t)).Perm
      (x :: chainElems t (hash x % hashtabs_capacity t)) := by
    rw [chainElems_insert, if_pos rfl, helems, hq, hsplit]
    exact List.perm_middle
  have hother : ∀ i, i ≠ hash x % hashtabs_capacity t →
      chainElems (hashtabs_insert cmp hash t x) i = chainElems t i := by
    intro i hi
    rw [chainElems_insert, if_neg hi]
  constructor
  · unfold entries
    rw [hashtabs_insert_capacity]
    exact flatten_update_perm hchainperm hother _ (List.nodup_range _)
      (List.mem_range.mpr hvlt)
  · intro i
    by_cases hi : i = hash x % hashtabs_capacity t
    · subst hi
      rw [chainElems_insert, if_pos rfl]
      exact queues_enqueu_pairwise hl _ x hpq
    · rw [hother i hi]
      exact hsorted i

lemma foldl_insert_capacity : ∀ (l : List α) (t0 : hashtabs_t α),
    hashtabs_capacity (l.foldl (hashtabs_insert cmp hash) t0)
      = hashtabs_capacity t0 := by
  intro l
  induction l with
  | nil => intro t0; rfl
  | cons x l' ih =>
    intro t0
    rw [List.foldl_cons, ih, hashtabs_insert_capacity]

/-- Folding inserts of pairwise non-equal keys over a well-formed directory:
buckets stay sorted and the traversal is a permutation of the old traversal
followed by the inserted keys. -/
lemma foldl_insert_spec (hl : CmpLaws cmp) :
    ∀ (l : List α) (t0 : hashtabs_t α),
      0 < hashtabs_capacity t0 →
      (∀ i, (chainElems t0 i).Pairwise (fun a b => cmp a b = -1)) →
      (entries t0 ++ l).Pairwise (fun a b => cmp a b ≠ 0) →
      (∀ i, (chainElems (l.foldl (hashtabs_insert cmp hash) t0) i).Pairwise
        (fun a b => cmp a b = -1))
    ∧ (entries (l.foldl (hashtabs_insert cmp hash) t0)).Perm (entries t0 ++ l) := by
  intro l
  induction l with
  | nil =>
    intro t0 _ hs _
    exact ⟨hs, by simp⟩
  | cons x l' ih =>
    intro t0 hcap hs hpw
    have hx : ∀ y ∈ entries t0, cmp x y ≠ 0 := by
      intro y hy h0
      have hyx := (List.pairwise_append.mp hpw).2.2 y hy x (by simp)
      exact hyx (by have := hl.flip x y; omega)
    rcases entries_insert_perm hl t0 x hcap hs hx with ⟨hperm, hs'⟩
    have hcap' : 0 < hashtabs_capacity (hashtabs_insert cmp hash t0 x) := by
      rw [hashtabs_insert_capacity]
      exact hcap
    have hpw' : (entries (hashtabs_insert cmp hash t0 x) ++ l').Pairwise
        (fun a b => cmp a b ≠ 0) := by
      refine List.Pairwise.perm hpw ?_ (fun {a b} h => ne0_symm hl h)
      exact (List.perm_middle).trans ((hperm.append_right l')).symm
    rcases ih (hashtabs_insert cmp hash t0 x) hcap' hs' hpw' with ⟨hsF, hpF⟩
    rw [List.foldl_cons]
    exact ⟨hsF, hpF.trans ((hperm.append_right l').trans List.perm_middle.symm)⟩

/-- The traversal of a well-formed directory holds pairwise non-equal
entries. -/
lemma hashtabs_inv_pairwise (hl : CmpLaws cmp) {t : hashtabs_t α}
    (hinv : hashtabs_inv cmp t) :
    (entries t).Pairwise (fun a b => cmp a b ≠ 0) := by
  unfold entries
  rw [List.pairwise_flatten]
  constructor
  · intro l hlm
    rcases List.mem_map.mp hlm with ⟨i, hi, rfl⟩
    exact (hinv.sorted_chains i (List.mem_range.mp hi)).imp (fun h => by omega)
  · rw [List.pairwise_map]
    refine List.Pairwise.imp_of_mem ?_ (List.pairwise_lt_range _)
    intro i j hi hj hij
    exact hinv.cross i (List.mem_range.mp hi) j (List.mem_range.mp hj)
      (Nat.ne_of_lt hij)

/-- Two comparator-equal members of a pairwise non-equal list coincide. -/
lemma pairwise_ne_unique (hl : CmpLaws cmp) {l : List α}
    (hpw : l.Pairwise (fun a b => cmp a b ≠ 0)) {y z : α}
    (hy : y ∈ l) (hz : z ∈ l) (h0 : cmp y z = 0) : z = y := by
  by_contra hne
  exact (List.Pairwise.forall (ne0_symm hl) hpw hy hz
    (fun he => hne he.symm)) h0

/-- A successful directory find comes from some bucket's find. -/
lemma find_buckets_some {t : hashtabs_t α} {x y : α} :
    ∀ {idxs : List Nat}, find_buckets cmp t x idxs = some y →
      ∃ i ∈ idxs, queues_find cmp x (chainElems t i) = some y := by
  intro idxs
  induction idxs with
  | nil =>
    intro h
    simp [find_buckets] at h
  | cons j js ih =>
    intro h
    cases hf : queues_find cmp x (chainElems t j) with
    | some z =>
      have hzy : z = y := by simpa [find_buckets, hf] using h
      exact ⟨j, by simp, by rw [hf, hzy]⟩
    | none =>
      have h' : find_buckets cmp t x js = some y := by
        simpa [find_buckets, hf] using h
      rcases ih h' with ⟨i, hi, hfi⟩
      exact ⟨i, by simp [hi], hfi⟩

/-- The directory scan returns the unique entry equal to the key from the
bucket holding it. -/
lemma find_buckets_mem (hl : CmpLaws cmp) {t : hashtabs_t α} {x y : α}
    (h0 : cmp x y = 0) :
    ∀ (idxs : List Nat),
      (∀ i ∈ idxs, (chainElems t i).Pairwise (fun a b => cmp a b = -1)) →
      (∀ i ∈ idxs, ∀ z ∈ chainElems t i, cmp x z = 0 → z = y) →
      (∃ i ∈ idxs, y ∈ chainElems t i) →
      find_buckets cmp t x idxs = some y := by
  intro idxs
  induction idxs with
  | nil =>
    rintro _ _ ⟨i, hi, _⟩
    simp at hi
  | cons j js ih =>
    intro hsort huniq hex
    by_cases hyj : y ∈ chainElems t j
    · have hfj := queues_find_mem hl (hsort j (by simp)) hyj h0
      simp [find_buckets, hfj]
    · have hfj : queues_find cmp x (chainElems t j) = none := by
        apply queues_find_none
        intro z hz h0z
        exact hyj ((huniq j (by simp) z hz h0z) ▸ hz)
      simp only [find_buckets, hfj]
      apply ih (fun i hi => hsort i (by simp [hi]))
        (fun i hi => huniq i (by simp [hi]))
      rcases hex with ⟨i, hi, hyi⟩
      rcases List.mem_cons.mp hi with rfl | hi'
      · exact absurd hyi hyj
      · exact ⟨i, hi', hyi⟩

end RehashFacts

/-- Claim C5: rehashing a well-formed directory whose capacity is not the
terminal sentinel yields a directory whose full traversal is a permutation
(hence the same set) of the old one, whose capacity is the smallest
prime-ladder member strictly greater than the old capacity, and in which
every key findable before is findable after with the identical associated
value.  The rehash only reads the old directory (its chains are walked with
the read-only map), so the old directory is not mutated — in this pure
model hashtabs_rehash is a function of t and t is untouched by
construction. -/
theorem claimC5 {α : Type} (cmp : α → α → Int) (hash : α → Nat)
    (hl : CmpLaws cmp) (t : hashtabs_t α) (hinv : hashtabs_inv cmp t)
    (hcap44 : t.cap_index ≤ 44) :
    (entries (hashtabs_rehash cmp hash t)).Perm (entries t)
  ∧ hashtabs_capacity (hashtabs_rehash cmp hash t) ∈ primes
  ∧ hashtabs_capacity t < hashtabs_capacity (hashtabs_rehash cmp hash t)
  ∧ (∀ p ∈ primes, hashtabs_capacity t < p →
      hashtabs_capacity (hashtabs_rehash cmp hash t) ≤ p)
  ∧ (∀ x y, hashtabs_find cmp t x = some y →
      hashtabs_find cmp (hashtabs_rehash cmp hash t) x = some y) := by
  have hcapr : hashtabs_capacity (hashtabs_rehash cmp hash t)
      = primes.getD (get_cap_index (hashtabs_capacity t)) 0 := by
    unfold hashtabs_rehash
    rw [foldl_insert_capacity]
    rfl
  have hlt : hashtabs_capacity t < C_SIZE_MAX := by
    have h1 : hashtabs_capacity t = primes.getD t.cap_index 0 := rfl
    have h2 : primes.getD t.cap_index 0
        = (primes.take NPRIMES).getD t.cap_index 0 :=
      (primes_take_getD (by omega)).symm
    have hlen45 : (primes.take NPRIMES).length = 45 := by decide
    have h3 : (primes.take NPRIMES).getD t.cap_index 0 ∈ primes.take NPRIMES :=
      getD_mem_of_lt (by omega)
    have h4 : ∀ p ∈ primes.take NPRIMES, p < C_SIZE_MAX := by decide
    rw [h1, h2]
    exact h4 _ h3
  rcases get_cap_index_spec (hashtabs_capacity t) with ⟨hmem, hgt, hleast⟩
  have h45 := get_cap_index_le (hashtabs_capacity t)
  have hlen : primes.length = 46 := by decide
  have hci : (hashtabs_new (hashtabs_capacity t) : hashtabs_t α).cap_index
      = get_cap_index (hashtabs_capacity t) := rfl
  have hmnew : hashtabs_capacity
      (hashtabs_new (hashtabs_capacity t) : hashtabs_t α) ∈ primes :=
    getD_mem_of_lt (by rw [hci]; omega)
  have hposnew : 0 < hashtabs_capacity
      (hashtabs_new (hashtabs_capacity t) : hashtabs_t α) :=
    (by decide : ∀ p ∈ primes, 0 < p) _ hmnew
  have hsortednew : ∀ i, (chainElems
      (hashtabs_new (hashtabs_capacity t) : hashtabs_t α) i).Pairwise
      (fun a b => cmp a b = -1) := by
    intro i
    simp [chainElems, hashtabs_new]
  have hpwentries := hashtabs_inv_pairwise hl hinv
  have hpw0 : (entries (hashtabs_new (hashtabs_capacity t) : hashtabs_t α)
      ++ entries t).Pairwise (fun a b => cmp a b ≠ 0) := by
    rw [entries_new]
    simpa using hpwentries
  rcases foldl_insert_spec hl (entries t) (hashtabs_new (hashtabs_capacity t))
    hposnew hsortednew hpw0 with ⟨hsF, hpF⟩
  have hperm : (entries (hashtabs_rehash cmp hash t)).Perm (entries t) := by
    have h2 := hpF
    rw [entries_new] at h2
    simpa [hashtabs_rehash] using h2
  refine ⟨hperm, by rw [hcapr]; exact hmem, by rw [hcapr]; exact hgt hlt,
    ?_, ?_⟩
  · intro p hp hltp
    rw [hcapr]
    exact hleast p hp hltp
  · intro x y hfind
    rcases find_buckets_some hfind with ⟨i, hiidx, hqf⟩
    rcases queues_find_some hqf with ⟨hyi, hxy⟩
    have hyent : y ∈ entries t :=
      mem_entries_of_mem_chain (List.mem_range.mp hiidx) hyi
    have hyent' : y ∈ entries (hashtabs_rehash cmp hash t) :=
      hperm.mem_iff.mpr hyent
    have hpw' : (entries (hashtabs_rehash cmp hash t)).Pairwise
        (fun a b => cmp a b ≠ 0) :=
      List.Pairwise.perm hpwentries hperm.symm (fun {a b} h => ne0_symm hl h)
    have hyent2 := hyent'
    unfold entries at hyent2
    rcases List.mem_flatten.mp hyent2 with ⟨lsub, hlsub, hylsub⟩
    rcases List.mem_map.mp hlsub with ⟨i', hi', rfl⟩
    have hsorts : ∀ j ∈ List.range
        (hashtabs_capacity (hashtabs_rehash cmp hash t)),
        (chainElems (hashtabs_rehash cmp hash t) j).Pairwise
          (fun a b => cmp a b = -1) := by
      intro j _
      simpa [hashtabs_rehash] using hsF j
    have huniq : ∀ j ∈ List.range
        (hashtabs_capacity (hashtabs_rehash cmp hash t)),
        ∀ z ∈ chainElems (hashtabs_rehash cmp hash t) j,
          cmp x z = 0 → z = y := by
      intro j hj z hz h0z
      have hzent : z ∈ entries (hashtabs_rehash cmp hash t) :=
        mem_entries_of_mem_chain (List.mem_range.mp hj) hz
      have hyz : cmp y z = 0 := by
        have := hl.eq_congr x y z hxy
        omega
      exact pairwise_ne_unique hl hpw' hyent' hzent hyz
    exact find_buckets_mem hl hxy _ hsorts huniq ⟨i', hi', hylsub⟩

/-- Claim C5 witness: rehashing the directory holding 5, 1, 3 at capacity
11 gives capacity 17, preserves the traversal up to permutation, and keeps
key 3 findable with the same value. -/
theorem claimC5_w :
    (entries (hashtabs_rehash natCmp id exTabS)).Perm (entries exTabS)
  ∧ hashtabs_capacity exTabS < hashtabs_capacity (hashtabs_rehash natCmp id exTabS)
  ∧ hashtabs_find natCmp (hashtabs_rehash natCmp id exTabS) 3 = some 3 := by
  have h := claimC5 natCmp id natCmp_laws exTabS
    ⟨by decide, by decide, by decide⟩ (by decide)
  exact ⟨h.1, h.2.2.1, h.2.2.2.2 3 3 (by decide)⟩

/-- Claim C9 (amended): across an insert whose selected bucket is already
allocated (load unchanged) the load factor does not decrease; and for a
fixed entry count, a rehash does not increase the load factor provided the
number of occupied buckets does not decrease.  Neither monotonicity holds
unconditionally, and the post-rehash decrease is not strict (see the
counterexample). -/
theorem claimC9 {α : Type} (cmp : α → α → Int) (hash : α → Nat) :
    (∀ (t : hashtabs_t α) (x : α) (q : queues_t α),
      t.A (hash x % hashtabs_capacity t) = some q →
      hashtabs_loadfactor t ≤ hashtabs_loadfactor (hashtabs_insert cmp hash t x))
  ∧ (∀ t : hashtabs_t α,
      0 < t.load → t.load ≤ (hashtabs_rehash cmp hash t).load →
      (hashtabs_rehash cmp hash t).size = t.size →
      hashtabs_loadfactor (hashtabs_rehash cmp hash t) ≤ hashtabs_loadfactor t) := by
  constructor
  · intro t x q hA
    have hload : (hashtabs_insert cmp hash t x).load = t.load := by
      simp [hashtabs_insert, hA]
    have hsize : (hashtabs_insert cmp hash t x).size = t.size + 1 := by
      simp [hashtabs_insert, hA]
    unfold hashtabs_loadfactor
    rw [hload, hsize]
    by_cases h0 : t.load = 0
    · simp [h0]
    · simp only [h0, if_neg]
      exact Nat.div_le_div_right (Nat.le_succ _)
  · intro t hpos hle hsize
    unfold hashtabs_loadfactor
    have h1 : ¬ t.load = 0 := by omega
    have h2 : ¬ (hashtabs_rehash cmp hash t).load = 0 := by omega
    simp only [h1, h2, if_neg, if_false]
    rw [hsize]
    exact Nat.div_le_div_left hle hpos

/-- Claim C9 witness: with two entries in one bucket, an insert into that
same bucket raises the load factor from 2 to 3; and a rehash of that
directory, which spreads the keys without losing occupancy, does not raise
the load factor. -/
theorem claimC9_w :
    hashtabs_loadfactor exTab9a ≤ hashtabs_loadfactor (hashtabs_insert natCmp id exTab9a 33)
  ∧ hashtabs_loadfactor (hashtabs_rehash natCmp id exTab9b) ≤ hashtabs_loadfactor exTab9b :=
  ⟨(claimC9 natCmp id).1 exTab9a 33 ⟨[0, 11, 22], 3, false⟩ (by decide),
   (claimC9 natCmp id).2 exTab9b (by decide) (by decide) (by decide)⟩
